import Mathlib

/-!
Verification of the data-preparation core of this repository: gap filling
(anomaly_handler.handle_missing_trading_days), feature derivation
(feature_engineer.engineer_features), target labeling
(window_creator.create_target), window slicing
(window_creator.create_windows_and_target), and the windowing failure step
of data_pipeline.main.

Modelling conventions:
- calendar dates are day numbers (Nat); day 0 is a Monday, so day d falls on
  a weekend iff d % 7 is 5 or 6; the fixed holiday set of the custom
  business-day calendar is a parameter (a list of day numbers);
- prices are rationals; a float column that can hold NaN is modelled as
  Option Rat; entity (stock) ids are Nat; the field name opn stands for the
  source column named open, which is a Lean keyword;
- pandas sort_values and sort_index are stable sorts: List.insertionSort;
- pandas reindex and .loc require unique labels and raise otherwise; the
  model totalises them with find? (first match), which agrees with pandas on
  the unique-key inputs described by the input schema.
-/

namespace Spec2Proof

/-- A raw input row of the labeling and windowing stages: one entity, one
calendar date, the close price and the remaining feature columns (each of
which can be null, i.e. NaN). -/
structure WRow where
  stock_id : Nat
  date : Nat
  close : ℚ
  features : List (Option ℚ)
  deriving DecidableEq, Repr

/-- Lexicographic (stock_id, date) comparison used by sort_values. -/
def rowLe (a b : WRow) : Prop :=
  a.stock_id < b.stock_id ∨ (a.stock_id = b.stock_id ∧ a.date ≤ b.date)

instance : DecidableRel rowLe := fun a b => by unfold rowLe; exact inferInstance

instance : IsTotal WRow rowLe :=
  ⟨fun a b => by
    unfold rowLe
    rcases Nat.lt_trichotomy a.stock_id b.stock_id with h | h | h
    · exact Or.inl (Or.inl h)
    · rcases Nat.le_total a.date b.date with h2 | h2
      · exact Or.inl (Or.inr ⟨h, h2⟩)
      · exact Or.inr (Or.inr ⟨h.symm, h2⟩)
    · exact Or.inr (Or.inl h)⟩

instance : IsTrans WRow rowLe :=
  ⟨fun a b c hab hbc => by
    unfold rowLe at *
    rcases hab with h1 | ⟨e1, d1⟩
    · rcases hbc with h2 | ⟨e2, _⟩
      · exact Or.inl (h1.trans h2)
      · exact Or.inl (e2 ▸ h1)
    · rcases hbc with h2 | ⟨e2, d2⟩
      · exact Or.inl (e1 ▸ h2)
      · exact Or.inr ⟨e1.trans e2, d1.trans d2⟩⟩

/-- Stable sort by (stock_id, date), as sort_values does at line 38. -/
def sortRows (rows : List WRow) : List WRow := List.insertionSort rowLe rows

/-- Future close lookup of find_future_close_for_group (lines 42-123): grp is
one stock's slice of the sorted frame; merge_asof with direction forward
matches the lookup date r.date + predDays against the first group row whose
date is at or after it and yields that row's close, or NaN when none exists. -/
def futureClose (grp : List WRow) (predDays : Nat) (r : WRow) : Option ℚ :=
  (grp.find? (fun s => decide (r.date + predDays ≤ s.date))).map (·.close)

/-- One labeled row: the input row plus the added target column
(none models NaN). -/
structure TRow where
  row : WRow
  target : Option Nat
  deriving DecidableEq, Repr

/-- Binary target of lines 153-158: 1 when the future close is strictly
greater than the current close, else 0; NaN when there is no future close. -/
def targetOf (close : ℚ) : Option ℚ → Option Nat
  | none => none
  | some fc => some (if close < fc then 1 else 0)

/-- Successful branch of create_target: sort the frame by (stock_id, date),
then per stock group compute the forward as-of close and the binary target.
The group handed to futureClose is the stock's slice of the sorted frame. -/
def createTargetRows (rows : List WRow) (predDays : Nat) : List TRow :=
  let s := sortRows rows
  s.map (fun r =>
    ⟨r, targetOf r.close
        (futureClose (s.filter (fun g => g.stock_id == r.stock_id)) predDays r)⟩)

/-- Model of create_target (lines 13-166): the DatetimeIndex check at lines
32-34 returns None before anything else runs; otherwise the labeled,
re-sorted frame is returned. -/
def create_target (indexIsDatetime : Bool) (rows : List WRow) (predDays : Nat) :
    Option (List TRow) :=
  if indexIsDatetime then some (createTargetRows rows predDays) else none

/-- One output row of the windowed table: the feature row plus time_idx,
prediction_date and the window's single target. -/
structure OutRow where
  stock_id : Nat
  date : Nat
  close : ℚ
  features : List (Option ℚ)
  time_idx : Nat
  prediction_date : Nat
  target : Nat
  deriving DecidableEq, Repr

/-- Read of stock_df.loc at a date label in the target column (line 229): the
first row carrying that date (dates are unique per stock in the schema). -/
def locTarget (stockRows : List TRow) (d : Nat) : Option Nat :=
  match stockRows.find? (fun tr => tr.row.date == d) with
  | none => none
  | some tr => tr.target

/-- True when some feature cell of the row is null (line 238 checks the
window's feature columns for NaN). -/
def hasNullFeature (tr : TRow) : Bool := tr.row.features.any (fun v => v.isNone)

/-- Decoration of a window slice as in lines 242-249: time_idx 0..W-1 in list
position order, the prediction date, and the scalar target on every row. -/
def decorateWindow (win : List TRow) (predDate : Nat) (t : Nat) : List OutRow :=
  win.enum.map (fun p =>
    ⟨p.2.row.stock_id, p.2.row.date, p.2.row.close, p.2.row.features,
     p.1, predDate, t⟩)

/-- Window emission for one stock (lines 216-252): a stock with fewer rows
than window_size is skipped; otherwise every end position from window_size-1
up to the last row yields a window unless the prediction row's target is NaN
or some feature inside the slice is NaN. -/
def windowsForStock (stockRows : List TRow) (W : Nat) : List (List OutRow) :=
  if stockRows.length < W then []
  else
    (List.range' (W - 1) (stockRows.length - (W - 1))).filterMap (fun endI =>
      match stockRows.get? endI with
      | none => none
      | some endRow =>
        let predDate := endRow.row.date
        match locTarget stockRows predDate with
        | none => none
        | some t =>
          let win := (stockRows.drop (endI + 1 - W)).take W
          if win.any hasNullFeature then none
          else some (decorateWindow win predDate t))

/-- Accumulator pass of firstUniques: values already seen are skipped. -/
def firstUniquesGo (seen : List Nat) : List Nat → List Nat
  | [] => []
  | a :: rest =>
    if seen.contains a then firstUniquesGo seen rest
    else a :: firstUniquesGo (a :: seen) rest

/-- Unique values in first-appearance order, as pandas unique (line 204). -/
def firstUniques (l : List Nat) : List Nat := firstUniquesGo [] l

/-- All windows over all stocks, iterating the unique stock ids of the
labeled frame and slicing each stock's rows out of it (lines 211-252). -/
def allWindows (labeled : List TRow) (W : Nat) : List (List OutRow) :=
  (firstUniques (labeled.map (fun tr => tr.row.stock_id))).flatMap
    (fun sid => windowsForStock (labeled.filter (fun tr => tr.row.stock_id == sid)) W)

/-- Model of create_windows_and_target (lines 169-274) on an input without a
target column: compute the target first (a None from create_target
propagates, lines 187-194), slice windows, and return None when no window at
all was created (lines 257-259); otherwise the concatenated window rows. -/
def create_windows_and_target (indexIsDatetime : Bool) (rows : List WRow)
    (W : Nat) (predDays : Nat) : Option (List OutRow) :=
  match create_target indexIsDatetime rows predDays with
  | none => none
  | some labeled =>
    let ws := allWindows labeled W
    if ws.isEmpty then none else some ws.flatten

/-- Step 4 of data_pipeline.main (lines 93-98): a None from the window
creator makes the run return the failure exit code 1 at once (no retry);
otherwise the run continues with the windowed table. -/
def pipelineWindowStep (indexIsDatetime : Bool) (rows : List WRow)
    (W predDays : Nat) : Except Nat (List OutRow) :=
  match create_windows_and_target indexIsDatetime rows W predDays with
  | none => Except.error 1
  | some w => Except.ok w

/-! ### GapFiller: anomaly_handler.handle_missing_trading_days -/

/-- A raw OHLCV row entering the gap filler; each numeric column can hold a
NaN, hence Option. The field opn is the source column named open. -/
structure PriceRow where
  stock_id : Nat
  date : Nat
  opn : Option ℚ
  high : Option ℚ
  low : Option ℚ
  close : Option ℚ
  volume : Option ℚ
  deriving DecidableEq, Repr

/-- Business day of the CustomBusinessDay calendar: not a weekend (day 0 is a
Monday) and not in the fixed holiday set H. -/
def isBDay (H : List Nat) (d : Nat) : Bool :=
  decide (d % 7 < 5) && !(H.contains d)

/-- Expected full range of business days between lo and hi inclusive, as
pd.date_range with the custom business-day frequency produces (line 82). -/
def bdaysBetween (H : List Nat) (lo hi : Nat) : List Nat :=
  (List.range' lo (hi + 1 - lo)).filter (isBDay H)

/-- Minimum of a date list (0 on an empty list, which never occurs). -/
def natMin : List Nat → Nat
  | [] => 0
  | a :: rest => rest.foldl Nat.min a

/-- Maximum of a date list (0 on an empty list, which never occurs). -/
def natMax : List Nat → Nat
  | [] => 0
  | a :: rest => rest.foldl Nat.max a

/-- Positions of the present (non-NaN) values of a column, with the values. -/
def valids (vs : List (Option ℚ)) : List (Nat × ℚ) :=
  vs.enum.filterMap (fun p => p.2.map (fun v => (p.1, v)))

/-- Last present value strictly before position i. -/
def prevValid (vs : List (Option ℚ)) (i : Nat) : Option (Nat × ℚ) :=
  ((valids vs).filter (fun p => decide (p.1 < i))).getLast?

/-- First present value strictly after position i. -/
def nextValid (vs : List (Option ℚ)) (i : Nat) : Option (Nat × ℚ) :=
  (valids vs).find? (fun p => decide (i < p.1))

/-- pandas linear interpolation with limit_direction forward at one position:
a present value is kept; a gap between two present values is filled on the
straight line through them, positionally, since method linear ignores the
index; a NaN after the last present value repeats that value; a NaN before
the first present value stays NaN. -/
def interpAt (vs : List (Option ℚ)) (i : Nat) : Option ℚ :=
  match vs.getD i none with
  | some v => some v
  | none =>
    match prevValid vs i, nextValid vs i with
    | some jp, some kp =>
        some (jp.2 + (kp.2 - jp.2) * (((i : ℚ) - (jp.1 : ℚ)) / ((kp.1 : ℚ) - (jp.1 : ℚ))))
    | some jp, none => some jp.2
    | none, _ => none

/-- Columnwise linear interpolation (line 104). -/
def interpolateCol (vs : List (Option ℚ)) : List (Option ℚ) :=
  (List.range vs.length).map (interpAt vs)

/-- bfill at one position: a NaN takes the next present value after it. -/
def bfillAt (vs : List (Option ℚ)) (i : Nat) : Option ℚ :=
  match vs.getD i none with
  | some v => some v
  | none => (nextValid vs i).map (·.2)

/-- Columnwise back fill (line 105). -/
def bfillCol (vs : List (Option ℚ)) : List (Option ℚ) :=
  (List.range vs.length).map (bfillAt vs)

/-- Interpolation followed by back fill, the fill applied to each numeric
column when the stock has missing trading days. -/
def fillCol (vs : List (Option ℚ)) : List (Option ℚ) :=
  bfillCol (interpolateCol vs)

/-- Projection of the reindexed frame onto one numeric column: a date with no
row reads as NaN, as does a present row whose cell is NaN. -/
def colOf (f : PriceRow → Option ℚ) (re : List (Option PriceRow)) : List (Option ℚ) :=
  re.map (fun o => o.bind f)

/-- Expected full business-day range of one stock's rows: the range between
the stock's min and max date (line 82). -/
def expectedOf (H : List Nat) (rows : List PriceRow) : List Nat :=
  bdaysBetween H (natMin (rows.map (·.date))) (natMax (rows.map (·.date)))

/-- Reindex of one stock's rows onto the expected business-day range (line
87): a date with no row reads as NaN (pandas reindex needs unique date
labels and the model takes a date's first row). -/
def reindexOf (H : List Nat) (rows : List PriceRow) : List (Option PriceRow) :=
  (expectedOf H rows).map (fun d => rows.find? (fun r => r.date == d))

/-- The missing-day mask test of lines 93 and 102: interpolation runs only
when some reindexed row has a null open. -/
def doFillOf (H : List Nat) (rows : List PriceRow) : Bool :=
  ((reindexOf H rows).map (fun o => (o.bind (·.opn)).isNone)).any id

/-- One numeric cell of the stock's processed frame: the reindexed column,
interpolated and back-filled when the stock has missing trading days, read
at position i (out-of-range reads as NaN, which never occurs). -/
def gapCell (H : List Nat) (rows : List PriceRow) (f : PriceRow → Option ℚ)
    (i : Nat) : Option ℚ :=
  (if doFillOf H rows then fillCol (colOf f (reindexOf H rows))
   else colOf f (reindexOf H rows)).getD i none

/-- Rows of one stock processed by handle_missing_trading_days (lines
70-113): reindex onto the expected business-day range between the stock's
min and max date, interpolate and back-fill the numeric columns when some
reindexed row has a null open (the missing-day mask of line 93, checked by
any at line 102), then drop every row still holding a null in a numeric
column (line 111). Rows on dates outside the expected business-day range
are dropped by the reindex itself. -/
def entityGapFill (H : List Nat) (sid : Nat) (rows : List PriceRow) : List PriceRow :=
  if rows.isEmpty then []
  else
    (List.range (expectedOf H rows).length).filterMap (fun i =>
      match gapCell H rows (·.opn) i, gapCell H rows (·.high) i,
            gapCell H rows (·.low) i, gapCell H rows (·.close) i,
            gapCell H rows (·.volume) i with
      | some o, some h, some l, some c, some v =>
          some ⟨sid, (expectedOf H rows).getD i 0, some o, some h, some l,
                some c, some v⟩
      | _, _, _, _, _ => none)

/-- Date comparison used by the final sort_index at line 129. -/
def dateLe (a b : PriceRow) : Prop := a.date ≤ b.date

instance : DecidableRel dateLe := fun a b => by unfold dateLe; exact inferInstance

instance : IsTotal PriceRow dateLe := ⟨fun a b => Nat.le_total a.date b.date⟩

instance : IsTrans PriceRow dateLe := ⟨fun _ _ _ hab hbc => Nat.le_trans hab hbc⟩

/-- Stable sort by date, as the final sort_index does. -/
def sortByDate (rows : List PriceRow) : List PriceRow := List.insertionSort dateLe rows

/-- Model of handle_missing_trading_days (lines 41-133): empty input returns
empty; otherwise each unique stock's rows are gap-filled independently, the
results concatenated and stably re-sorted by date. -/
def handle_missing_trading_days (H : List Nat) (rows : List PriceRow) : List PriceRow :=
  if rows.isEmpty then []
  else
    sortByDate ((firstUniques (rows.map (·.stock_id))).flatMap
      (fun sid => entityGapFill H sid (rows.filter (fun r => r.stock_id == sid))))

/-! ### FeatureDeriver: feature_engineer.engineer_features -/

/-- A cleaned row entering feature engineering: close and volume are present
(the gap filler has dropped every null). -/
structure FRow where
  stock_id : Nat
  date : Nat
  close : ℚ
  volume : ℚ
  deriving DecidableEq, Repr

/-- A row after feature engineering: the input row plus the derived columns
daily_return (NaN on a stock's first row), MA_5, MA_20 and avg_volume_7. -/
structure EngRow where
  base : FRow
  daily_return : Option ℚ
  ma5 : ℚ
  ma20 : ℚ
  avg_volume7 : ℚ
  deriving DecidableEq, Repr

/-- Mean of the last at most L values, i.e. rolling(L, min_periods 1).mean()
at the final position of xs. -/
def tailMean (L : Nat) (xs : List ℚ) : ℚ :=
  let w := xs.drop (xs.length - L)
  w.sum / (w.length : ℚ)

/-- Lexicographic (stock_id, date) comparison on feature rows. -/
def frowLe (a b : FRow) : Prop :=
  a.stock_id < b.stock_id ∨ (a.stock_id = b.stock_id ∧ a.date ≤ b.date)

instance : DecidableRel frowLe := fun a b => by unfold frowLe; exact inferInstance

instance : IsTotal FRow frowLe :=
  ⟨fun a b => by
    unfold frowLe
    rcases Nat.lt_trichotomy a.stock_id b.stock_id with h | h | h
    · exact Or.inl (Or.inl h)
    · rcases Nat.le_total a.date b.date with h2 | h2
      · exact Or.inl (Or.inr ⟨h, h2⟩)
      · exact Or.inr (Or.inr ⟨h.symm, h2⟩)
    · exact Or.inr (Or.inl h)⟩

instance : IsTrans FRow frowLe :=
  ⟨fun a b c hab hbc => by
    unfold frowLe at *
    rcases hab with h1 | ⟨e1, d1⟩
    · rcases hbc with h2 | ⟨e2, _⟩
      · exact Or.inl (h1.trans h2)
      · exact Or.inl (e2 ▸ h1)
    · rcases hbc with h2 | ⟨e2, d2⟩
      · exact Or.inl (e1 ▸ h2)
      · exact Or.inr ⟨e1.trans e2, d1.trans d2⟩⟩

/-- Stable sort by (stock_id, date) on feature rows. -/
def sortFRows (rows : List FRow) : List FRow := List.insertionSort frowLe rows

/-- Derived columns of one row r, computed from pre, the sorted-frame prefix
ending at r, restricted to r's own stock: pct_change takes the previous
group close, the rolling means with min_periods 1 average the last at most
L group values. This positional reading is what the per-group transform of
calculate_daily_returns, calculate_moving_averages and
calculate_volume_indicators computes on the sorted frame. -/
def engRow (pre : List FRow) (r : FRow) : EngRow :=
  let g := pre.filter (fun x => x.stock_id == r.stock_id)
  let closes := g.map (·.close)
  { base := r
    daily_return := (closes.dropLast.getLast?).map (fun p => (r.close - p) / p)
    ma5 := tailMean 5 closes
    ma20 := tailMean 20 closes
    avg_volume7 := tailMean 7 (g.map (·.volume)) }

/-- Left-to-right pass over the sorted frame carrying the prefix seen so
far. -/
def engAux : List FRow → List FRow → List EngRow
  | _, [] => []
  | pre, r :: rest => engRow (pre ++ [r]) r :: engAux (pre ++ [r]) rest

/-- Model of engineer_features (lines 107-129): sort by (stock_id, date),
then add the derived columns from each stock's own history. -/
def engineer_features (rows : List FRow) : List EngRow :=
  engAux [] (sortFRows rows)

/-! ### Derived notions the claims quantify over -/

/-- Key of a row: the (entity_id, date) pair, unique per the input schema. -/
def keyOf (r : WRow) : Nat × Nat := (r.stock_id, r.date)

/-- Uniqueness of (entity_id, date) keys, the input schema's condition. -/
def nodupKeys (rows : List WRow) : Prop := (rows.map keyOf).Nodup

instance (rows : List WRow) : Decidable (nodupKeys rows) := by
  unfold nodupKeys; exact inferInstance

/-- Replacement of one row's close price, all other fields untouched. -/
def setClose (r : WRow) (c : ℚ) : WRow := ⟨r.stock_id, r.date, c, r.features⟩

/-- Specification-side window emission at end position e: the target is read
positionally from the end row itself, the window is the W-row slice ending at
e, and emission requires a present target and no null feature in the slice. -/
def emitSpec (stockRows : List TRow) (W e : Nat) : Option (List OutRow) :=
  match stockRows.get? e with
  | none => none
  | some endRow =>
    match endRow.target with
    | none => none
    | some t =>
      let win := (stockRows.drop (e + 1 - W)).take W
      if win.any hasNullFeature then none
      else some (decorateWindow win endRow.row.date t)

/-- A price row with every numeric field present (no NaN anywhere). -/
def fullRow (r : PriceRow) : Bool :=
  r.opn.isSome && r.high.isSome && r.low.isSome && r.close.isSome && r.volume.isSome

/-- Claim C5 as a predicate on an input table: in the gap filler's output,
whenever two dates of one entity are consecutive for that entity (no output
date of the entity lies strictly between them), no business day lies
strictly between them either. -/
def noGapProperty (H : List Nat) (rows : List PriceRow) : Prop :=
  ∀ sid d₁ d₂,
    (∃ r ∈ handle_missing_trading_days H rows, r.stock_id = sid ∧ r.date = d₁) →
    (∃ r ∈ handle_missing_trading_days H rows, r.stock_id = sid ∧ r.date = d₂) →
    d₁ < d₂ →
    (∀ dm, dm < d₂ → d₁ < dm →
      ¬∃ r ∈ handle_missing_trading_days H rows, r.stock_id = sid ∧ r.date = dm) →
    ∀ b, b < d₂ → d₁ < b → isBDay H b = false

/-- Coverage test of claim C7: every business day between the entity's min
and max date carries at least one row of the entity. -/
def coversBDays (H : List Nat) (l : List PriceRow) : Bool :=
  (bdaysBetween H (natMin (l.map (·.date))) (natMax (l.map (·.date)))).all
    (fun d => l.any (fun r => r.date == d))

/-- Claim C7 as a predicate on an input table: every entity whose rows cover
every business day between its min and max date comes out of the gap filler
with the same values (as a multiset of rows; order and metadata are allowed
to differ, and the column set is fixed by the row type). -/
def identityOnCovered (H : List Nat) (rows : List PriceRow) : Prop :=
  ∀ sid, coversBDays H (rows.filter (fun r => r.stock_id == sid)) = true →
    ((handle_missing_trading_days H rows).filter (fun r => r.stock_id == sid)).Perm
      (rows.filter (fun r => r.stock_id == sid))

/-! ### General helper lemmas -/

theorem engAux_map_base (l : List FRow) : ∀ pre, (engAux pre l).map (·.base) = l := by
  induction l with
  | nil => intro pre; rfl
  | cons r rest ih => intro pre; simp [engAux, engRow, ih]

theorem createTargetRows_map_row (rows : List WRow) (predDays : Nat) :
    (createTargetRows rows predDays).map (·.row) = sortRows rows := by
  conv_lhs => rw [createTargetRows]
  rw [List.map_map]
  exact List.map_id' _

theorem sortRows_perm (rows : List WRow) : (sortRows rows).Perm rows :=
  List.perm_insertionSort _ _

theorem sortRows_sorted (rows : List WRow) : (sortRows rows).Sorted rowLe :=
  List.sorted_insertionSort _ _

/-- On a list sorted by a Nat key, find? returns a satisfying element of
minimal key. -/
theorem find?_min_key {α : Type} (key : α → Nat) {l : List α} {p : α → Bool} {x : α}
    (hs : l.Pairwise (fun a b => key a ≤ key b)) (hf : l.find? p = some x) :
    ∀ y ∈ l, p y = true → key x ≤ key y := by
  induction l with
  | nil => simp at hf
  | cons a rest ih =>
    rcases List.pairwise_cons.mp hs with ⟨ha, hrest⟩
    by_cases hpa : p a = true
    · rw [List.find?_cons_of_pos _ hpa] at hf
      cases hf
      intro y hy _
      rcases List.mem_cons.mp hy with rfl | hy2
      · exact Nat.le_refl _
      · exact ha y hy2
    · rw [List.find?_cons_of_neg _ (by simpa using hpa)] at hf
      intro y hy hpy
      rcases List.mem_cons.mp hy with rfl | hy2
      · exact absurd hpy hpa
      · exact ih hrest hf y hy2 hpy

/-- Rows of one stock, extracted from a frame sorted by (stock_id, date),
have ascending dates. -/
theorem group_dates_le {l : List WRow} (hs : l.Sorted rowLe) (sid : Nat) :
    (l.filter (fun g => g.stock_id == sid)).Pairwise (fun a b => a.date ≤ b.date) := by
  have h1 : (l.filter (fun g => g.stock_id == sid)).Pairwise rowLe := hs.filter _
  refine List.Pairwise.imp_of_mem ?_ h1
  intro a b ha hb hab
  have ha' : a.stock_id = sid := by simpa using (List.mem_filter.mp ha).2
  have hb' : b.stock_id = sid := by simpa using (List.mem_filter.mp hb).2
  rcases hab with h | ⟨_, hd⟩
  · rw [ha', hb'] at h
    exact absurd h (Nat.lt_irrefl _)
  · exact hd

theorem mem_createTargetRows {rows : List WRow} {pd : Nat} {tr : TRow} :
    tr ∈ createTargetRows rows pd ↔
      tr.row ∈ rows ∧ tr.target = targetOf tr.row.close
        (futureClose ((sortRows rows).filter (fun g => g.stock_id == tr.row.stock_id))
          pd tr.row) := by
  unfold createTargetRows
  simp only [List.mem_map]
  constructor
  · rintro ⟨r, hr, rfl⟩
    exact ⟨(sortRows_perm rows).mem_iff.mp hr, rfl⟩
  · rintro ⟨hmem, htarget⟩
    refine ⟨tr.row, (sortRows_perm rows).mem_iff.mpr hmem, ?_⟩
    cases tr with
    | mk r t => simp only at htarget ⊢; rw [htarget]

/-- Characterization of the computed target of a labeled row: NaN exactly
when the entity has no row at or after the cutoff, and otherwise the
comparison of the current close against the close of the entity's
minimal-date row at or after the cutoff. -/
theorem target_spec {rows : List WRow} {pd : Nat} (hk : nodupKeys rows) {tr : TRow}
    (htr : tr ∈ createTargetRows rows pd) :
    tr.row ∈ rows ∧
    (tr.target = none ↔
      ∀ s ∈ rows, s.stock_id = tr.row.stock_id → s.date < tr.row.date + pd) ∧
    (∀ s ∈ rows, s.stock_id = tr.row.stock_id → tr.row.date + pd ≤ s.date →
      (∀ u ∈ rows, u.stock_id = tr.row.stock_id → tr.row.date + pd ≤ u.date →
        s.date ≤ u.date) →
      tr.target = some (if tr.row.close < s.close then 1 else 0)) := by
  rcases mem_createTargetRows.mp htr with ⟨hmem, htarget⟩
  set grp := (sortRows rows).filter (fun g => g.stock_id == tr.row.stock_id) with hgrp
  have hmemgrp : ∀ s : WRow, s ∈ grp ↔ s ∈ rows ∧ s.stock_id = tr.row.stock_id := by
    intro s
    rw [hgrp, List.mem_filter, (sortRows_perm rows).mem_iff, beq_iff_eq]
  have hdates : grp.Pairwise (fun a b => a.date ≤ b.date) :=
    group_dates_le (sortRows_sorted rows) _
  refine ⟨hmem, ?_, ?_⟩
  · constructor
    · intro hnone s hs hsid
      rw [htarget] at hnone
      have hfc : futureClose grp pd tr.row = none := by
        cases hfc : futureClose grp pd tr.row with
        | none => rfl
        | some v => rw [hfc] at hnone; exact absurd hnone (by simp [targetOf])
      have hfind : grp.find? (fun s => decide (tr.row.date + pd ≤ s.date)) = none := by
        unfold futureClose at hfc
        cases hf : grp.find? (fun s => decide (tr.row.date + pd ≤ s.date)) with
        | none => rfl
        | some m => rw [hf] at hfc; simp at hfc
      have := List.find?_eq_none.mp hfind s (hmemgrp s |>.mpr ⟨hs, hsid⟩)
      simpa using this
    · intro hall
      rw [htarget]
      have hfind : grp.find? (fun s => decide (tr.row.date + pd ≤ s.date)) = none := by
        rw [List.find?_eq_none]
        intro s hsgrp
        rcases (hmemgrp s).mp hsgrp with ⟨hsr, hsid⟩
        simpa using Nat.not_le.mpr (hall s hsr hsid)
      unfold futureClose
      rw [hfind]
      rfl
  · intro s hs hsid hcut hmin
    have hsgrp : s ∈ grp := (hmemgrp s).mpr ⟨hs, hsid⟩
    cases hf : grp.find? (fun u => decide (tr.row.date + pd ≤ u.date)) with
    | none =>
      exact absurd (by simpa using List.find?_eq_none.mp hf s hsgrp) (by simpa using hcut)
    | some m =>
      have hm : tr.row.date + pd ≤ m.date := by simpa using List.find?_some hf
      have hmgrp : m ∈ grp := List.mem_of_find?_eq_some hf
      rcases (hmemgrp m).mp hmgrp with ⟨hmr, hmsid⟩
      have h1 : m.date ≤ s.date :=
        find?_min_key (fun u => u.date) hdates hf s hsgrp (by simpa using hcut)
      have h2 : s.date ≤ m.date := hmin m hmr hmsid hm
      have hkey : keyOf s = keyOf m := by
        unfold keyOf
        rw [hsid, hmsid]
        exact congrArg _ (Nat.le_antisymm h2 h1)
      have hsm : s = m := List.inj_on_of_nodup_map hk hs hmr hkey
      rw [htarget]
      unfold futureClose
      rw [hf, ← hsm]
      rfl

theorem list_set_self {α : Type} (l : List α) (i : Nat) (h : i < l.length) :
    l.set i (l[i]) = l := by
  apply List.ext_getElem?
  intro j
  by_cases hj : i = j
  · subst hj
    rw [List.getElem?_set_self h]
    exact (List.getElem?_eq_getElem h).symm
  · exact List.getElem?_set_ne hj

/-- A nonempty set of rows of a list has a member of minimal date. -/
theorem exists_min_date {l : List WRow} {P : WRow → Prop}
    (h : ∃ s ∈ l, P s) : ∃ m ∈ l, P m ∧ ∀ u ∈ l, P u → m.date ≤ u.date := by
  induction l with
  | nil => simp at h
  | cons a rest ih =>
    by_cases hrest : ∃ s ∈ rest, P s
    · rcases ih hrest with ⟨m, hm, hPm, hmin⟩
      by_cases hPa : P a
      · by_cases hle : a.date ≤ m.date
        · refine ⟨a, List.mem_cons_self a rest, hPa, ?_⟩
          intro u hu hPu
          rcases List.mem_cons.mp hu with rfl | hu2
          · exact Nat.le_refl _
          · exact Nat.le_trans hle (hmin u hu2 hPu)
        · refine ⟨m, List.mem_cons_of_mem a hm, hPm, ?_⟩
          intro u hu hPu
          rcases List.mem_cons.mp hu with rfl | hu2
          · exact Nat.le_of_lt (Nat.lt_of_not_le hle)
          · exact hmin u hu2 hPu
      · refine ⟨m, List.mem_cons_of_mem a hm, hPm, ?_⟩
        intro u hu hPu
        rcases List.mem_cons.mp hu with rfl | hu2
        · exact absurd hPu hPa
        · exact hmin u hu2 hPu
    · rcases h with ⟨s, hs, hPs⟩
      rcases List.mem_cons.mp hs with rfl | hs2
      · refine ⟨s, List.mem_cons_self s rest, hPs, ?_⟩
        intro u hu hPu
        rcases List.mem_cons.mp hu with rfl | hu2
        · exact Nat.le_refl _
        · exact absurd ⟨u, hu2, hPu⟩ hrest
      · exact absurd ⟨s, hs2, hPs⟩ hrest

/-- Where a list has pairwise-distinct dates, the find? of a member's date
returns exactly that member. -/
theorem find?_date_nodup {l : List TRow}
    (hd : (l.map (fun tr => tr.row.date)).Nodup) :
    ∀ {e : Nat} {r : TRow}, l.get? e = some r →
      l.find? (fun x => x.row.date == r.row.date) = some r := by
  induction l with
  | nil => intro e r he; simp at he
  | cons a rest ih =>
    intro e r he
    rw [List.map_cons, List.nodup_cons] at hd
    cases e with
    | zero =>
      rw [List.get?_cons_zero] at he
      cases he
      rw [List.find?_cons_of_pos _ (by simp)]
    | succ e' =>
      rw [List.get?_cons_succ] at he
      have hrmem : r ∈ rest := by
        rw [List.get?_eq_getElem?] at he
        exact List.getElem?_mem he
      have hne : ¬(a.row.date == r.row.date) = true := by
        simp only [beq_iff_eq]
        intro hcontra
        exact hd.1 (hcontra ▸ List.mem_map_of_mem (fun tr => tr.row.date) hrmem)
      rw [@List.find?_cons_of_neg _ (fun x : TRow => x.row.date == r.row.date) a rest hne]
      exact ih hd.2 he

theorem labeled_pairwise (rows : List WRow) (pd : Nat) :
    (createTargetRows rows pd).Pairwise (fun a b => rowLe a.row b.row) := by
  unfold createTargetRows
  rw [List.pairwise_map]
  exact sortRows_sorted rows

theorem labeled_keys_nodup (rows : List WRow) (pd : Nat) (hk : nodupKeys rows) :
    ((createTargetRows rows pd).map (fun tr => keyOf tr.row)).Nodup := by
  have h1 : (createTargetRows rows pd).map (fun tr => keyOf tr.row)
      = ((createTargetRows rows pd).map (·.row)).map keyOf := by
    rw [List.map_map]
    rfl
  rw [h1, createTargetRows_map_row]
  exact ((sortRows_perm rows).map keyOf).nodup_iff.mpr hk

/-- One stock's slice of the labeled frame has strictly ascending dates. -/
theorem tgroup_dates_lt {l : List TRow}
    (hs : l.Pairwise (fun a b => rowLe a.row b.row))
    (hknd : (l.map (fun tr => keyOf tr.row)).Nodup) (sid : Nat) :
    (l.filter (fun tr => tr.row.stock_id == sid)).Pairwise
      (fun a b => a.row.date < b.row.date) := by
  have h1 := hs.filter (fun tr => tr.row.stock_id == sid)
  have h2 : l.Pairwise (fun a b => keyOf a.row ≠ keyOf b.row) :=
    List.pairwise_map.mp hknd
  have h3 := h2.filter (fun tr => tr.row.stock_id == sid)
  refine (h1.and h3).imp_of_mem ?_
  intro a b ha hb hab
  have ha' : a.row.stock_id = sid := by simpa using (List.mem_filter.mp ha).2
  have hb' : b.row.stock_id = sid := by simpa using (List.mem_filter.mp hb).2
  rcases hab.1 with h | ⟨_, hd⟩
  · rw [ha', hb'] at h
    exact absurd h (Nat.lt_irrefl _)
  · refine Nat.lt_of_le_of_ne hd ?_
    intro hde
    exact hab.2 (by unfold keyOf; rw [ha', hb', hde])

/-- Targets produced by the labeler take only the values NaN, 0 and 1. -/
theorem createTargetRows_target_cases {rows : List WRow} {pd : Nat} {tr : TRow}
    (h : tr ∈ createTargetRows rows pd) :
    tr.target = none ∨ tr.target = some 0 ∨ tr.target = some 1 := by
  rcases mem_createTargetRows.mp h with ⟨-, ht⟩
  rw [ht]
  unfold targetOf
  cases futureClose ((sortRows rows).filter
      (fun g => g.stock_id == tr.row.stock_id)) pd tr.row with
  | none => exact Or.inl rfl
  | some fc =>
    by_cases hc : tr.row.close < fc
    · exact Or.inr (Or.inr (by simp [hc]))
    · exact Or.inr (Or.inl (by simp [hc]))

/-! ### Column-level lemmas for the gap filler -/

theorem enumFrom_pairwise_fst {α : Type} (l : List α) :
    ∀ n, (l.enumFrom n).Pairwise (fun a b => a.1 < b.1) := by
  induction l with
  | nil => intro n; simp
  | cons a rest ih =>
    intro n
    refine List.pairwise_cons.mpr ⟨?_, ih (n + 1)⟩
    rintro ⟨i, x⟩ hx
    have := (List.mem_enumFrom hx).1
    simpa using this

theorem mem_valids {vs : List (Option ℚ)} {p : Nat} {v : ℚ} :
    (p, v) ∈ valids vs ↔ vs[p]? = some (some v) := by
  unfold valids
  rw [List.mem_filterMap]
  constructor
  · rintro ⟨⟨i, o⟩, hq, hf⟩
    cases o with
    | none => simp at hf
    | some w =>
      simp only [Option.map_some'] at hf
      have hf' : (i, w) = (p, v) := by simpa using hf
      rcases Prod.mk.injEq .. ▸ hf' with h
      have hi : i = p := congrArg Prod.fst hf'
      have hw : w = v := congrArg Prod.snd hf'
      subst hi; subst hw
      exact List.mem_enum_iff_getElem?.mp hq
  · intro h
    exact ⟨(p, some v), List.mem_enum_iff_getElem?.mpr h, rfl⟩

theorem valids_pairwise (vs : List (Option ℚ)) :
    (valids vs).Pairwise (fun a b => a.1 < b.1) := by
  unfold valids
  have henum : vs.enum.Pairwise (fun a b => a.1 < b.1) := enumFrom_pairwise_fst vs 0
  refine List.Pairwise.filterMap _ ?_ henum
  rintro ⟨i, o⟩ ⟨i', o'⟩ hlt b hb b' hb'
  cases o with
  | none => simp at hb
  | some w =>
    cases o' with
    | none => simp at hb'
    | some w' =>
      simp only [Option.map_some', Option.mem_def, Option.some.injEq] at hb hb'
      rw [← hb, ← hb']
      exact hlt

theorem prevValid_none {vs : List (Option ℚ)} {i : Nat}
    (h : prevValid vs i = none) : ∀ p v, (p, v) ∈ valids vs → i ≤ p := by
  unfold prevValid at h
  rw [List.getLast?_eq_none_iff] at h
  intro p v hpv
  by_contra hlt
  have hmem : (p, v) ∈ (valids vs).filter (fun q => decide (q.1 < i)) :=
    List.mem_filter.mpr ⟨hpv, by simpa using Nat.lt_of_not_le hlt⟩
  rw [h] at hmem
  simp at hmem

theorem prevValid_some {vs : List (Option ℚ)} {i j : Nat} {a : ℚ}
    (h : prevValid vs i = some (j, a)) : (j, a) ∈ valids vs ∧ j < i := by
  unfold prevValid at h
  have hmem := List.mem_of_mem_getLast? h
  rcases List.mem_filter.mp hmem with ⟨hv, hlt⟩
  exact ⟨hv, by simpa using hlt⟩

theorem nextValid_spec {vs : List (Option ℚ)} {i k : Nat} {b : ℚ}
    (h : nextValid vs i = some (k, b)) :
    vs[k]? = some (some b) ∧ i < k ∧
      ∀ p v, (p, v) ∈ valids vs → i < p → k ≤ p := by
  refine ⟨mem_valids.mp (List.mem_of_find?_eq_some h),
    by simpa using List.find?_some h, ?_⟩
  intro p v hpv hip
  have hpl : (valids vs).Pairwise (fun a b => a.1 ≤ b.1) :=
    (valids_pairwise vs).imp (fun h => Nat.le_of_lt h)
  have := find?_min_key Prod.fst hpl h (p, v) hpv (by simpa using hip)
  simpa using this

theorem nextValid_eq_of {vs : List (Option ℚ)} {i k : Nat} {b : ℚ}
    (hk : vs[k]? = some (some b)) (hik : i < k)
    (hbetween : ∀ p, i < p → p < k → vs[p]? = some none) :
    nextValid vs i = some (k, b) := by
  have hkmem : (k, b) ∈ valids vs := mem_valids.mpr hk
  have hsome : (nextValid vs i).isSome := by
    unfold nextValid
    rw [List.find?_isSome]
    exact ⟨(k, b), hkmem, by simpa using hik⟩
  rcases Option.isSome_iff_exists.mp hsome with ⟨⟨p, v⟩, hx⟩
  rcases nextValid_spec hx with ⟨hpval, hip, hmin⟩
  have hpk : p ≤ k := hmin k b hkmem hik
  have hpe : p = k := by
    rcases Nat.lt_or_ge p k with hplt | hpge
    · exfalso
      rw [hbetween p hip hplt] at hpval
      simp at hpval
    · omega
  subst hpe
  rw [hk] at hpval
  have hv : b = v := by simpa using hpval
  subst hv
  exact hx

theorem interpAt_valid {vs : List (Option ℚ)} {i : Nat} {v : ℚ}
    (h : vs[i]? = some (some v)) : interpAt vs i = some v := by
  simp [interpAt, List.getD_eq_getElem?_getD, h]

theorem interpAt_gap_interior {vs : List (Option ℚ)} {i j k : Nat} {a b : ℚ}
    (hi : vs[i]? = some none)
    (hp : prevValid vs i = some (j, a)) (hn : nextValid vs i = some (k, b)) :
    interpAt vs i =
      some (a + (b - a) * (((i : ℚ) - (j : ℚ)) / ((k : ℚ) - (j : ℚ)))) := by
  simp [interpAt, List.getD_eq_getElem?_getD, hi, hp, hn]

theorem interpAt_leading {vs : List (Option ℚ)} {i : Nat}
    (hi : vs[i]? = some none) (hp : prevValid vs i = none) :
    interpAt vs i = none := by
  simp [interpAt, List.getD_eq_getElem?_getD, hi, hp]

theorem interpAt_isSome_of_prev {vs : List (Option ℚ)} {i j : Nat} {a : ℚ}
    (hi : vs[i]? = some none) (hp : prevValid vs i = some (j, a)) :
    (interpAt vs i).isSome := by
  cases hn : nextValid vs i with
  | none => simp [interpAt, List.getD_eq_getElem?_getD, hi, hp, hn]
  | some kp => simp [interpAt, List.getD_eq_getElem?_getD, hi, hp, hn]

theorem interpolateCol_length (vs : List (Option ℚ)) :
    (interpolateCol vs).length = vs.length := by
  unfold interpolateCol
  rw [List.length_map, List.length_range]

theorem interpolateCol_getElem? {vs : List (Option ℚ)} {i : Nat}
    (h : i < vs.length) : (interpolateCol vs)[i]? = some (interpAt vs i) := by
  unfold interpolateCol
  rw [List.getElem?_map, List.getElem?_range h]
  rfl

theorem bfillCol_length (vs : List (Option ℚ)) : (bfillCol vs).length = vs.length := by
  unfold bfillCol
  rw [List.length_map, List.length_range]

theorem bfillCol_getElem? {vs : List (Option ℚ)} {i : Nat}
    (h : i < vs.length) : (bfillCol vs)[i]? = some (bfillAt vs i) := by
  unfold bfillCol
  rw [List.getElem?_map, List.getElem?_range h]
  rfl

theorem fillCol_length (vs : List (Option ℚ)) : (fillCol vs).length = vs.length := by
  unfold fillCol
  rw [bfillCol_length, interpolateCol_length]

theorem fillCol_getElem? {vs : List (Option ℚ)} {i : Nat} (h : i < vs.length) :
    (fillCol vs)[i]? = some (bfillAt (interpolateCol vs) i) := by
  unfold fillCol
  exact bfillCol_getElem? (by rw [interpolateCol_length]; exact h)

theorem bfillAt_of_some {vs : List (Option ℚ)} {i : Nat} {v : ℚ}
    (h : vs[i]? = some (some v)) : bfillAt vs i = some v := by
  simp [bfillAt, List.getD_eq_getElem?_getD, h]

/-- The filled value of an interior gap: linear interpolation (positionally)
between the nearest present neighbours. -/
theorem fillCol_interior {vs : List (Option ℚ)} {i j k : Nat} {a b : ℚ}
    (hi : vs[i]? = some none)
    (hp : prevValid vs i = some (j, a)) (hn : nextValid vs i = some (k, b)) :
    (fillCol vs)[i]? =
      some (some (a + (b - a) * (((i : ℚ) - (j : ℚ)) / ((k : ℚ) - (j : ℚ))))) := by
  have hlen : i < vs.length := (List.getElem?_eq_some_iff.mp hi).1
  have h2 : (interpolateCol vs)[i]? =
      some (some (a + (b - a) * (((i : ℚ) - (j : ℚ)) / ((k : ℚ) - (j : ℚ))))) := by
    rw [interpolateCol_getElem? hlen, interpAt_gap_interior hi hp hn]
  rw [fillCol_getElem? hlen, bfillAt_of_some h2]

/-- The filled value of a null before the first present value: the back fill
takes that first present value. -/
theorem fillCol_leading {vs : List (Option ℚ)} {i k : Nat} {b : ℚ}
    (hi : vs[i]? = some none)
    (hp : prevValid vs i = none) (hn : nextValid vs i = some (k, b)) :
    (fillCol vs)[i]? = some (some b) := by
  have hlen : i < vs.length := (List.getElem?_eq_some_iff.mp hi).1
  rcases nextValid_spec hn with ⟨hkval, hik, hmin⟩
  have hklen : k < vs.length := (List.getElem?_eq_some_iff.mp hkval).1
  have hbet : ∀ p, i < p → p < k → (interpolateCol vs)[p]? = some none := by
    intro p hip hpk
    have hplen : p < vs.length := Nat.lt_trans hpk hklen
    have hvp : vs[p]? = some none := by
      cases hvp' : vs[p]? with
      | none =>
        exfalso
        rw [List.getElem?_eq_none_iff] at hvp'
        omega
      | some o =>
        cases o with
        | none => rfl
        | some w =>
          exfalso
          have := hmin p w (mem_valids.mpr hvp') hip
          omega
    have hpprev : prevValid vs p = none := by
      cases hq : prevValid vs p with
      | none => rfl
      | some qp =>
        exfalso
        rcases qp with ⟨q, w⟩
        rcases prevValid_some hq with ⟨hqv, hqp'⟩
        have hiq : i ≤ q := prevValid_none hp q w hqv
        rcases Nat.lt_or_ge i q with hiq' | hiq'
        · have := hmin q w hqv hiq'
          omega
        · have hqi : q = i := by omega
          subst hqi
          rw [mem_valids] at hqv
          rw [hi] at hqv
          simp at hqv
    rw [interpolateCol_getElem? hplen, interpAt_leading hvp hpprev]
  have hkval' : (interpolateCol vs)[k]? = some (some b) := by
    rw [interpolateCol_getElem? hklen, interpAt_valid hkval]
  have hii : (interpolateCol vs)[i]? = some none := by
    rw [interpolateCol_getElem? hlen, interpAt_leading hi hp]
  have hnv : nextValid (interpolateCol vs) i = some (k, b) :=
    nextValid_eq_of hkval' hik hbet
  have hbf : bfillAt (interpolateCol vs) i = some b := by
    simp [bfillAt, List.getD_eq_getElem?_getD, hii, hnv]
  rw [fillCol_getElem? hlen, hbf]

theorem filterMap_eq_map_of {α β : Type} {l : List α} {f : α → Option β} {g : α → β}
    (h : ∀ a ∈ l, f a = some (g a)) : l.filterMap f = l.map g := by
  induction l with
  | nil => rfl
  | cons a rest ih =>
    rw [List.filterMap_cons, h a (List.mem_cons_self a rest), List.map_cons,
      ih (fun b hb => h b (List.mem_cons_of_mem _ hb))]

theorem map_getD_range {α : Type} (l : List α) (d : α) :
    (List.range l.length).map (fun i => l.getD i d) = l := by
  apply List.ext_getElem?
  intro j
  by_cases hj : j < l.length
  · rw [List.getElem?_map, List.getElem?_range hj, List.getElem?_eq_getElem hj]
    simp [List.getD_eq_getElem?_getD, List.getElem?_eq_getElem hj]
  · have h1 : (List.range l.length)[j]? = none := by
      rw [List.getElem?_eq_none_iff, List.length_range]
      omega
    have h2 : l[j]? = none := by
      rw [List.getElem?_eq_none_iff]
      omega
    rw [List.getElem?_map, h1, h2]
    rfl

/-- A column with at least one present value is completely filled by
interpolation plus back fill. -/
theorem fillCol_all_some {vs : List (Option ℚ)} {q : Nat} {w : ℚ}
    (hval : vs[q]? = some (some w)) :
    ∀ i, i < vs.length → ∃ u, (fillCol vs)[i]? = some (some u) := by
  intro i hi
  cases hvi : vs[i]? with
  | none =>
    exfalso
    rw [List.getElem?_eq_none_iff] at hvi
    omega
  | some o =>
    cases o with
    | some v =>
      refine ⟨v, ?_⟩
      rw [fillCol_getElem? hi, bfillAt_of_some (by
        rw [interpolateCol_getElem? hi, interpAt_valid hvi])]
    | none =>
      cases hp : prevValid vs i with
      | some jp =>
        rcases jp with ⟨j, a⟩
        have hsome := interpAt_isSome_of_prev hvi hp
        rcases Option.isSome_iff_exists.mp hsome with ⟨u, hu⟩
        refine ⟨u, ?_⟩
        rw [fillCol_getElem? hi, bfillAt_of_some (by
          rw [interpolateCol_getElem? hi, hu])]
      | none =>
        have hqi : i < q := by
          have hle : i ≤ q := prevValid_none hp q w (mem_valids.mpr hval)
          rcases Nat.lt_or_ge i q with h | h
          · exact h
          · have hq : q = i := by omega
            rw [hq, hvi] at hval
            simp at hval
        have hqlen : q < vs.length := (List.getElem?_eq_some_iff.mp hval).1
        have hqval' : (interpolateCol vs)[q]? = some (some w) := by
          rw [interpolateCol_getElem? hqlen, interpAt_valid hval]
        have hii : (interpolateCol vs)[i]? = some none := by
          rw [interpolateCol_getElem? hi, interpAt_leading hvi hp]
        have hnvs : (nextValid (interpolateCol vs) i).isSome := by
          unfold nextValid
          rw [List.find?_isSome]
          exact ⟨(q, w), mem_valids.mpr hqval', by simpa using hqi⟩
        rcases Option.isSome_iff_exists.mp hnvs with ⟨⟨k, b⟩, hnv⟩
        refine ⟨b, ?_⟩
        rw [fillCol_getElem? hi]
        have hbf : bfillAt (interpolateCol vs) i = some b := by
          simp [bfillAt, List.getD_eq_getElem?_getD, hii, hnv]
        rw [hbf]

/-- A column with no present value at all stays entirely null. -/
theorem fillCol_all_none {vs : List (Option ℚ)}
    (h : ∀ (q : Nat) (w : ℚ), vs[q]? ≠ some (some w)) :
    ∀ i, i < vs.length → (fillCol vs)[i]? = some none := by
  have hvalids : valids vs = [] := by
    cases hv : valids vs with
    | nil => rfl
    | cons p rest =>
      exfalso
      have hp : p ∈ valids vs := by rw [hv]; exact List.mem_cons_self p rest
      rcases p with ⟨q, w⟩
      exact h q w (mem_valids.mp hp)
  have hprev : ∀ p, prevValid vs p = none := by
    intro p
    unfold prevValid
    rw [hvalids]
    rfl
  have hinterp : ∀ p, p < vs.length → (interpolateCol vs)[p]? = some none := by
    intro p hp
    rw [interpolateCol_getElem? hp]
    cases hvp : vs[p]? with
    | none =>
      exfalso
      rw [List.getElem?_eq_none_iff] at hvp
      omega
    | some o =>
      cases o with
      | some v => exact absurd hvp (h p v)
      | none => rw [interpAt_leading hvp (hprev p)]
  have hvalids' : valids (interpolateCol vs) = [] := by
    cases hv : valids (interpolateCol vs) with
    | nil => rfl
    | cons p rest =>
      exfalso
      have hp : p ∈ valids (interpolateCol vs) := by
        rw [hv]; exact List.mem_cons_self p rest
      rcases p with ⟨q, w⟩
      have := mem_valids.mp hp
      have hqlen : q < (interpolateCol vs).length :=
        (List.getElem?_eq_some_iff.mp this).1
      rw [interpolateCol_length] at hqlen
      rw [hinterp q hqlen] at this
      simp at this
  intro i hi
  rw [fillCol_getElem? hi]
  have hbf : bfillAt (interpolateCol vs) i = none := by
    unfold bfillAt
    rw [List.getD_eq_getElem?_getD, hinterp i hi]
    unfold nextValid
    rw [hvalids']
    rfl
  rw [hbf]

theorem mem_firstUniquesGo {a : Nat} :
    ∀ {l seen : List Nat}, a ∈ firstUniquesGo seen l ↔ a ∈ l ∧ a ∉ seen := by
  intro l
  induction l with
  | nil => intro seen; simp [firstUniquesGo]
  | cons b rest ih =>
    intro seen
    unfold firstUniquesGo
    by_cases hb : seen.contains b
    · rw [if_pos hb, ih]
      constructor
      · rintro ⟨h1, h2⟩
        exact ⟨List.mem_cons_of_mem _ h1, h2⟩
      · rintro ⟨h1, h2⟩
        rcases List.mem_cons.mp h1 with rfl | h1'
        · exact absurd (by simpa using hb) h2
        · exact ⟨h1', h2⟩
    · rw [if_neg hb]
      constructor
      · intro h
        rcases List.mem_cons.mp h with rfl | h'
        · exact ⟨List.mem_cons_self a rest, by simpa using hb⟩
        · rcases ih.mp h' with ⟨h1, h2⟩
          refine ⟨List.mem_cons_of_mem _ h1, fun hseen => h2 ?_⟩
          exact List.mem_cons_of_mem _ hseen
      · rintro ⟨h1, h2⟩
        rcases List.mem_cons.mp h1 with rfl | h1'
        · exact List.mem_cons_self a _
        · by_cases hab : a = b
          · subst hab
            exact List.mem_cons_self a _
          · refine List.mem_cons_of_mem _ (ih.mpr ⟨h1', fun hs => ?_⟩)
            rcases List.mem_cons.mp hs with h | h
            · exact hab h
            · exact h2 h

theorem mem_firstUniques {a : Nat} {l : List Nat} : a ∈ firstUniques l ↔ a ∈ l := by
  unfold firstUniques
  rw [mem_firstUniquesGo]
  simp

theorem firstUniquesGo_nodup : ∀ (l seen : List Nat), (firstUniquesGo seen l).Nodup := by
  intro l
  induction l with
  | nil => intro seen; simp [firstUniquesGo]
  | cons b rest ih =>
    intro seen
    unfold firstUniquesGo
    by_cases hb : seen.contains b
    · rw [if_pos hb]
      exact ih seen
    · rw [if_neg hb]
      refine List.nodup_cons.mpr ⟨fun hmem => ?_, ih (b :: seen)⟩
      have := (mem_firstUniquesGo.mp hmem).2
      exact this (List.mem_cons_self b seen)

theorem firstUniques_nodup (l : List Nat) : (firstUniques l).Nodup :=
  firstUniquesGo_nodup l []

theorem entityGapFill_stockid {H : List Nat} {sid : Nat} {rows : List PriceRow}
    {r : PriceRow} (h : r ∈ entityGapFill H sid rows) : r.stock_id = sid := by
  unfold entityGapFill at h
  by_cases hne : rows.isEmpty
  · rw [if_pos hne] at h
    simp at h
  · rw [if_neg hne] at h
    rcases List.mem_filterMap.mp h with ⟨i, _, hf⟩
    cases h1 : gapCell H rows (fun r => r.opn) i with
    | none => rw [h1] at hf; simp at hf
    | some o =>
      cases h2 : gapCell H rows (fun r => r.high) i with
      | none => rw [h1, h2] at hf; simp at hf
      | some hi =>
        cases h3 : gapCell H rows (fun r => r.low) i with
        | none => rw [h1, h2, h3] at hf; simp at hf
        | some lo =>
          cases h4 : gapCell H rows (fun r => r.close) i with
          | none => rw [h1, h2, h3, h4] at hf; simp at hf
          | some c =>
            cases h5 : gapCell H rows (fun r => r.volume) i with
            | none => rw [h1, h2, h3, h4, h5] at hf; simp at hf
            | some v =>
              rw [h1, h2, h3, h4, h5] at hf
              cases Option.some.inj hf
              rfl

theorem filter_flatMap_eq {uniques : List Nat} {G : Nat → List PriceRow}
    (hnd : uniques.Nodup) (hG : ∀ s ∈ uniques, ∀ r ∈ G s, r.stock_id = s)
    {sid : Nat} (hsid : sid ∈ uniques) :
    (uniques.flatMap G).filter (fun r => r.stock_id == sid) = G sid := by
  induction uniques with
  | nil => simp at hsid
  | cons a rest ih =>
    rw [List.flatMap_cons, List.filter_append]
    rcases List.mem_cons.mp hsid with rfl | hmem
    · have h1 : (G sid).filter (fun r => r.stock_id == sid) = G sid :=
        List.filter_eq_self.mpr (fun r hr => by
          simpa using hG sid (List.mem_cons_self sid rest) r hr)
      have h2 : (rest.flatMap G).filter (fun r => r.stock_id == sid) = [] := by
        rw [List.filter_eq_nil_iff]
        intro r hr
        rcases List.mem_flatMap.mp hr with ⟨s, hs, hrG⟩
        have hrs := hG s (List.mem_cons_of_mem _ hs) r hrG
        have hne : s ≠ sid := fun he => (List.nodup_cons.mp hnd).1 (he ▸ hs)
        simp [hrs, hne]
      rw [h1, h2, List.append_nil]
    · have hane : a ≠ sid := fun he => (List.nodup_cons.mp hnd).1 (he ▸ hmem)
      have h1 : (G a).filter (fun r => r.stock_id == sid) = [] := by
        rw [List.filter_eq_nil_iff]
        intro r hr
        have hra := hG a (List.mem_cons_self a rest) r hr
        simp [hra, hane]
      rw [h1, List.nil_append]
      exact ih (List.nodup_cons.mp hnd).2
        (fun s hs => hG s (List.mem_cons_of_mem _ hs)) hmem

/-- The sid rows of the gap filler's output are exactly the gap-filled sid
group (as a multiset; the final sort_index reorders only). -/
theorem handle_missing_filter (H : List Nat) (rows : List PriceRow) (sid : Nat)
    (hsid : sid ∈ rows.map (·.stock_id)) :
    ((handle_missing_trading_days H rows).filter (fun r => r.stock_id == sid)).Perm
      (entityGapFill H sid (rows.filter (fun r => r.stock_id == sid))) := by
  have hne : rows.isEmpty = false := by
    cases rows with
    | nil => simp at hsid
    | cons a l => rfl
  unfold handle_missing_trading_days
  rw [if_neg (by simp [hne])]
  unfold sortByDate
  refine ((List.perm_insertionSort dateLe _).filter _).trans ?_
  rw [filter_flatMap_eq (firstUniques_nodup _)
    (fun s _ r hr => entityGapFill_stockid hr) (mem_firstUniques.mpr hsid)]

theorem mem_handle_missing {H : List Nat} {rows : List PriceRow} {r : PriceRow}
    (h : r ∈ handle_missing_trading_days H rows) :
    r.stock_id ∈ rows.map (·.stock_id) ∧
    r ∈ entityGapFill H r.stock_id (rows.filter (fun x => x.stock_id == r.stock_id)) := by
  unfold handle_missing_trading_days at h
  by_cases hne : rows.isEmpty
  · rw [if_pos (by simpa using hne)] at h
    simp at h
  · rw [if_neg (by simpa using hne)] at h
    unfold sortByDate at h
    have h2 := (List.perm_insertionSort dateLe _).mem_iff.mp h
    rcases List.mem_flatMap.mp h2 with ⟨s, hs, hrG⟩
    have hrs := entityGapFill_stockid hrG
    subst hrs
    exact ⟨mem_firstUniques.mp hs, hrG⟩

theorem handle_missing_mem_of {H : List Nat} {rows : List PriceRow} {sid : Nat}
    {r : PriceRow} (hsid : sid ∈ rows.map (·.stock_id))
    (hr : r ∈ entityGapFill H sid (rows.filter (fun x => x.stock_id == sid))) :
    r ∈ handle_missing_trading_days H rows := by
  have hp := handle_missing_filter H rows sid hsid
  have : r ∈ (handle_missing_trading_days H rows).filter
      (fun x => x.stock_id == sid) := hp.mem_iff.mpr hr
  exact List.mem_of_mem_filter this

theorem mem_bdaysBetween {H : List Nat} {lo hi d : Nat} :
    d ∈ bdaysBetween H lo hi ↔ lo ≤ d ∧ d ≤ hi ∧ isBDay H d = true := by
  unfold bdaysBetween
  rw [List.mem_filter, List.mem_range'_1]
  constructor
  · rintro ⟨⟨h1, h2⟩, h3⟩
    exact ⟨h1, by omega, h3⟩
  · rintro ⟨h1, h2, h3⟩
    exact ⟨⟨h1, by omega⟩, h3⟩

theorem bdaysBetween_nodup (H : List Nat) (lo hi : Nat) :
    (bdaysBetween H lo hi).Nodup := by
  unfold bdaysBetween
  exact (List.nodup_range' lo (hi + 1 - lo)).filter _

theorem find?_pdate_nodup {l : List PriceRow}
    (hd : (l.map (·.date)).Nodup) :
    ∀ {e : Nat} {r : PriceRow}, l.get? e = some r →
      l.find? (fun x => x.date == r.date) = some r := by
  induction l with
  | nil => intro e r he; simp at he
  | cons a rest ih =>
    intro e r he
    rw [List.map_cons, List.nodup_cons] at hd
    cases e with
    | zero =>
      rw [List.get?_cons_zero] at he
      cases he
      rw [List.find?_cons_of_pos _ (by simp)]
    | succ e' =>
      rw [List.get?_cons_succ] at he
      have hrmem : r ∈ rest := by
        rw [List.get?_eq_getElem?] at he
        exact List.getElem?_mem he
      have hne : ¬(a.date == r.date) = true := by
        simp only [beq_iff_eq]
        intro hcontra
        exact hd.1 (hcontra ▸ List.mem_map_of_mem (fun x => x.date) hrmem)
      rw [@List.find?_cons_of_neg _ (fun x : PriceRow => x.date == r.date) a rest hne]
      exact ih hd.2 he

theorem reindexOf_length (H : List Nat) (rows : List PriceRow) :
    (reindexOf H rows).length = (expectedOf H rows).length := by
  unfold reindexOf
  rw [List.length_map]

theorem colOf_length (f : PriceRow → Option ℚ) (re : List (Option PriceRow)) :
    (colOf f re).length = re.length := by
  unfold colOf
  rw [List.length_map]

theorem colOf_getElem? {f : PriceRow → Option ℚ} {re : List (Option PriceRow)}
    {i : Nat} : (colOf f re)[i]? = (re[i]?).map (fun o => o.bind f) := by
  unfold colOf
  rw [List.getElem?_map]

/-- Row-level description of the gap filler's output on a stock whose every
cell survives: one output row per expected business day, built from the
processed cells. -/
theorem entityGapFill_eq_map {H : List Nat} {sid : Nat} {rows : List PriceRow}
    (hne : rows.isEmpty = false)
    (h : ∀ i, i < (expectedOf H rows).length →
      (gapCell H rows (fun r => r.opn) i).isSome ∧
      (gapCell H rows (fun r => r.high) i).isSome ∧
      (gapCell H rows (fun r => r.low) i).isSome ∧
      (gapCell H rows (fun r => r.close) i).isSome ∧
      (gapCell H rows (fun r => r.volume) i).isSome) :
    entityGapFill H sid rows = (List.range (expectedOf H rows).length).map
      (fun i => ⟨sid, (expectedOf H rows).getD i 0,
        gapCell H rows (fun r => r.opn) i, gapCell H rows (fun r => r.high) i,
        gapCell H rows (fun r => r.low) i, gapCell H rows (fun r => r.close) i,
        gapCell H rows (fun r => r.volume) i⟩) := by
  unfold entityGapFill
  rw [if_neg (by simp [hne])]
  apply filterMap_eq_map_of
  intro i hi
  have hi' : i < (expectedOf H rows).length := List.mem_range.mp hi
  obtain ⟨h1, h2, h3, h4, h5⟩ := h i hi'
  obtain ⟨o, ho⟩ := Option.isSome_iff_exists.mp h1
  obtain ⟨hh, hhh⟩ := Option.isSome_iff_exists.mp h2
  obtain ⟨l, hl⟩ := Option.isSome_iff_exists.mp h3
  obtain ⟨c, hc⟩ := Option.isSome_iff_exists.mp h4
  obtain ⟨v, hv⟩ := Option.isSome_iff_exists.mp h5
  simp only [ho, hhh, hl, hc, hv]

theorem entityGapFill_empty_of {H : List Nat} {sid : Nat} {rows : List PriceRow}
    (h : ∀ i, i < (expectedOf H rows).length →
      gapCell H rows (fun r => r.opn) i = none) :
    entityGapFill H sid rows = [] := by
  unfold entityGapFill
  by_cases hne : rows.isEmpty
  · rw [if_pos hne]
  · rw [if_neg hne, List.filterMap_eq_nil_iff]
    intro i hi
    have h0 := h i (List.mem_range.mp hi)
    simp only [h0]

theorem entityGapFill_dates_of {H : List Nat} {sid : Nat} {rows : List PriceRow}
    (hne : rows.isEmpty = false)
    (h : ∀ i, i < (expectedOf H rows).length →
      (gapCell H rows (fun r => r.opn) i).isSome ∧
      (gapCell H rows (fun r => r.high) i).isSome ∧
      (gapCell H rows (fun r => r.low) i).isSome ∧
      (gapCell H rows (fun r => r.close) i).isSome ∧
      (gapCell H rows (fun r => r.volume) i).isSome) :
    (entityGapFill H sid rows).map (·.date) = expectedOf H rows := by
  rw [entityGapFill_eq_map hne h, List.map_map]
  exact map_getD_range (expectedOf H rows) 0

/-- With every numeric field of the input present, the gap filler either
drops a stock entirely (when not one of its dates is an expected business
day) or emits a row for every expected business day. -/
theorem entityGapFill_dates_full {H : List Nat} {sid : Nat} {rows : List PriceRow}
    (hfull : ∀ r ∈ rows, fullRow r = true) :
    entityGapFill H sid rows = [] ∨
    (entityGapFill H sid rows).map (·.date) = expectedOf H rows := by
  by_cases hne : rows.isEmpty
  · left
    unfold entityGapFill
    rw [if_pos hne]
  · have hne' : rows.isEmpty = false := by simpa using hne
    have hlenre : (reindexOf H rows).length = (expectedOf H rows).length :=
      reindexOf_length H rows
    -- every found row has all five fields present
    have hfound : ∀ {i : Nat} {r : PriceRow},
        (reindexOf H rows)[i]? = some (some r) → r ∈ rows := by
      intro i r hir
      unfold reindexOf at hir
      rw [List.getElem?_map] at hir
      cases hoexp : (expectedOf H rows)[i]? with
      | none => rw [hoexp] at hir; simp at hir
      | some d =>
        rw [hoexp] at hir
        have : rows.find? (fun x => x.date == d) = some r := by simpa using hir
        exact List.mem_of_find?_eq_some this
    have hfields : ∀ r ∈ rows, r.opn.isSome ∧ r.high.isSome ∧ r.low.isSome ∧
        r.close.isSome ∧ r.volume.isSome := by
      intro r hr
      have := hfull r hr
      unfold fullRow at this
      simp only [Bool.and_eq_true] at this
      exact ⟨this.1.1.1.1, this.1.1.1.2, this.1.1.2, this.1.2, this.2⟩
    rcases Classical.em (∃ (i : Nat) (r : PriceRow),
      (reindexOf H rows)[i]? = some (some r)) with hS | hS
    · -- at least one expected date has a row: everything fills
      right
      rcases hS with ⟨q, r, hq⟩
      have hqlen : q < (reindexOf H rows).length :=
        (List.getElem?_eq_some_iff.mp hq).1
      apply entityGapFill_dates_of hne'
      intro i hi
      have hcol : ∀ (f : PriceRow → Option ℚ), (∀ x ∈ rows, (f x).isSome) →
          (gapCell H rows f i).isSome := by
        intro f hf
        unfold gapCell
        by_cases hdf : doFillOf H rows = true
        · rw [if_pos hdf]
          have hcollen : (colOf f (reindexOf H rows)).length =
              (expectedOf H rows).length := by
            rw [colOf_length, hlenre]
          obtain ⟨w, hw⟩ := Option.isSome_iff_exists.mp (hf r (hfound hq))
          have hqval : (colOf f (reindexOf H rows))[q]? = some (some w) := by
            rw [colOf_getElem?, hq]
            simp [hw]
          obtain ⟨u, hu⟩ := fillCol_all_some hqval i (by rw [hcollen]; exact hi)
          rw [List.getD_eq_getElem?_getD, hu]
          rfl
        · rw [if_neg hdf]
          -- no missing day: every reindex cell is a row with a present open
          have hdf' : doFillOf H rows = false := by
            cases hx : doFillOf H rows
            · rfl
            · exact absurd hx hdf
          unfold doFillOf at hdf'
          rw [List.any_eq_false] at hdf'
          have hre : ∀ o ∈ reindexOf H rows, ∃ x, o = some x ∧ x ∈ rows := by
            intro o ho
            have hmask := hdf' ((o.bind (·.opn)).isNone)
              (List.mem_map_of_mem _ ho)
            simp only [id] at hmask
            cases o with
            | none => simp at hmask
            | some x =>
              refine ⟨x, rfl, ?_⟩
              rcases List.mem_iff_getElem.mp ho with ⟨j, hj, hje⟩
              exact hfound (by rw [← hje]; exact List.getElem?_eq_getElem hj)
          have hi' : i < (reindexOf H rows).length := by rw [hlenre]; exact hi
          obtain ⟨o, hoi⟩ : ∃ o, (reindexOf H rows)[i]? = some o :=
            ⟨_, List.getElem?_eq_getElem hi'⟩
          obtain ⟨x, rfl, hxrows⟩ := hre o (List.getElem?_mem hoi)
          rw [List.getD_eq_getElem?_getD, colOf_getElem?, hoi]
          obtain ⟨w, hw⟩ := Option.isSome_iff_exists.mp (hf x hxrows)
          simp [hw]
      exact ⟨hcol _ (fun x hx => (hfields x hx).1),
             hcol _ (fun x hx => (hfields x hx).2.1),
             hcol _ (fun x hx => (hfields x hx).2.2.1),
             hcol _ (fun x hx => (hfields x hx).2.2.2.1),
             hcol _ (fun x hx => (hfields x hx).2.2.2.2)⟩
    · -- no expected date has a row: every column is fully null and all drops
      left
      push_neg at hS
      have hrenone : ∀ i, i < (reindexOf H rows).length →
          (reindexOf H rows)[i]? = some none := by
        intro i hi
        cases ho : (reindexOf H rows)[i]? with
        | none =>
          exfalso
          rw [List.getElem?_eq_none_iff] at ho
          omega
        | some o =>
          cases o with
          | none => rfl
          | some r => exact absurd ho (hS i r)
      apply entityGapFill_empty_of
      intro i hi
      unfold gapCell
      have hvnone : ∀ (q : Nat) (w : ℚ),
          (colOf (fun r => r.opn) (reindexOf H rows))[q]? ≠ some (some w) := by
        intro q w hqw
        rw [colOf_getElem?] at hqw
        cases hq : (reindexOf H rows)[q]? with
        | none => rw [hq] at hqw; simp at hqw
        | some o =>
          rw [hq] at hqw
          have hqlt : q < (reindexOf H rows).length :=
            (List.getElem?_eq_some_iff.mp hq).1
          rw [hrenone q hqlt] at hq
          cases Option.some.inj hq
          simp at hqw
      have hilen : i < (colOf (fun r => r.opn) (reindexOf H rows)).length := by
        rw [colOf_length, hlenre]
        exact hi
      by_cases hdf : doFillOf H rows = true
      · rw [if_pos hdf]
        rw [List.getD_eq_getElem?_getD, fillCol_all_none hvnone i hilen]
        rfl
      · rw [if_neg hdf]
        rw [List.getD_eq_getElem?_getD]
        have hi' : i < (reindexOf H rows).length := by rw [hlenre]; exact hi
        rw [colOf_getElem?, hrenone i hi']
        rfl

theorem decorateWindow_length (win : List TRow) (pd t : Nat) :
    (decorateWindow win pd t).length = win.length := by
  unfold decorateWindow
  rw [List.length_map, List.enum_length]

theorem decorateWindow_map_time_idx (win : List TRow) (pd t : Nat) :
    (decorateWindow win pd t).map (·.time_idx) = List.range win.length := by
  unfold decorateWindow
  rw [List.map_map]
  have h : ((fun o : OutRow => o.time_idx) ∘ fun p : Nat × TRow =>
      (⟨p.2.row.stock_id, p.2.row.date, p.2.row.close, p.2.row.features,
        p.1, pd, t⟩ : OutRow)) = Prod.fst := rfl
  rw [h, List.enum_map_fst]

theorem decorateWindow_map_date (win : List TRow) (pd t : Nat) :
    (decorateWindow win pd t).map (·.date) = win.map (fun tr => tr.row.date) := by
  unfold decorateWindow
  rw [List.map_map]
  have h : ((fun o : OutRow => o.date) ∘ fun p : Nat × TRow =>
      (⟨p.2.row.stock_id, p.2.row.date, p.2.row.close, p.2.row.features,
        p.1, pd, t⟩ : OutRow)) = (fun tr : TRow => tr.row.date) ∘ Prod.snd := rfl
  rw [h, ← List.map_map, List.enum_map_snd]

theorem mem_decorateWindow {win : List TRow} {pd t : Nat} {o : OutRow}
    (h : o ∈ decorateWindow win pd t) :
    o.prediction_date = pd ∧ o.target = t ∧ ∃ tr ∈ win, o.stock_id = tr.row.stock_id := by
  unfold decorateWindow at h
  rcases List.mem_map.mp h with ⟨p, hp, rfl⟩
  refine ⟨rfl, rfl, p.2, ?_, rfl⟩
  have h2 : p.2 ∈ win.enum.map Prod.snd := List.mem_map_of_mem Prod.snd hp
  rwa [List.enum_map_snd] at h2

theorem decorateWindow_getElem_date (win : List TRow) (pd t k : Nat)
    (hk : k < win.length) :
    ((decorateWindow win pd t)[k]?).map (fun o => o.date) = some (win[k].row.date) := by
  have h1 : ((decorateWindow win pd t).map (fun o => o.date))[k]? =
      some (win[k].row.date) := by
    rw [decorateWindow_map_date, List.getElem?_map, List.getElem?_eq_getElem hk]
    rfl
  rwa [List.getElem?_map] at h1

/-! ### Claim theorems -/

/-- C10: on a frame whose index is not a DatetimeIndex, create_target returns
the failure value None instead of a labeled table, and
create_windows_and_target, which must compute the target itself, then also
returns None rather than raising or producing a partial table. -/
theorem c10_non_datetime_index_gives_none (rows : List WRow) (W predDays : Nat) :
    create_target false rows predDays = none ∧
    create_windows_and_target false rows W predDays = none :=
  ⟨rfl, rfl⟩

/-- C6: when windowing yields zero windows across all stocks,
create_windows_and_target returns the failure value None instead of an
output table, and step 4 of data_pipeline.main turns that None into the
hard failure exit code 1 without any retry. -/
theorem c6_zero_windows_hard_failure (rows : List WRow) (W predDays : Nat)
    (h : allWindows (createTargetRows rows predDays) W = []) :
    create_windows_and_target true rows W predDays = none ∧
    pipelineWindowStep true rows W predDays = Except.error 1 := by
  have h1 : create_windows_and_target true rows W predDays = none := by
    simp [create_windows_and_target, create_target, h]
  refine ⟨h1, ?_⟩
  unfold pipelineWindowStep
  rw [h1]

/-- Witness for C6: a single-row stock cannot fill a window of size 2, so the
whole run fails with exit code 1. -/
theorem c6_zero_windows_hard_failure_witness :
    allWindows (createTargetRows [⟨0, 0, 10, []⟩] 7) 2 = [] ∧
    create_windows_and_target true [⟨0, 0, 10, []⟩] 2 7 = none ∧
    pipelineWindowStep true [⟨0, 0, 10, []⟩] 2 7 = Except.error 1 := by
  have h : allWindows (createTargetRows [⟨0, 0, 10, []⟩] 7) 2 = [] := by decide
  exact ⟨h, (c6_zero_windows_hard_failure _ _ _ h).1,
         (c6_zero_windows_hard_failure _ _ _ h).2⟩

/-- C9 counterexample: on an input not sorted by (stock_id, date), the rows
of create_target's output are not the input rows with a target appended; the
frame was re-sorted (and the sort and the new column are in fact applied in
place to the caller's frame, which sort_values at line 38 mutates). -/
theorem c9_unsorted_input_is_reordered :
    (createTargetRows [⟨0, 5, 10, []⟩, ⟨0, 3, 11, []⟩] 7).map (·.row) ≠
      [⟨0, 5, 10, []⟩, ⟨0, 3, 11, []⟩] := by decide

/-- C9 amended: create_target returns the input rows re-sorted by
(stock_id, date) with only the target column added, and engineer_features
returns the input rows re-sorted by (stock_id, date) with only the derived
columns added; neither invents or drops a row. -/
theorem c9_output_is_resorted_input_plus_columns (rows : List WRow)
    (predDays : Nat) (frows : List FRow) :
    (createTargetRows rows predDays).map (·.row) = sortRows rows ∧
    (engineer_features frows).map (·.base) = sortFRows frows := by
  constructor
  · conv_lhs => rw [createTargetRows]
    rw [List.map_map]
    exact List.map_id' _
  · exact engAux_map_base _ _

/-- C2 counterexample: two inputs that differ only in the close price of the
row at date 8 — a date strictly after the earlier row's cutoff 0 + 7 — give
the earlier row (date 0) different targets (1 against 0), so a close change
after the cutoff does change an earlier row's target. -/
theorem c2_after_cutoff_change_flips_earlier_target :
    ((createTargetRows [⟨0, 0, 10, []⟩, ⟨0, 8, 11, []⟩] 7).map
        (fun tr => (tr.row.date, tr.target)) = [(0, some 1), (8, none)]) ∧
    ((createTargetRows [⟨0, 0, 10, []⟩, ⟨0, 8, 9, []⟩] 7).map
        (fun tr => (tr.row.date, tr.target)) = [(0, some 0), (8, none)]) ∧
    ([⟨0, 0, 10, []⟩, ⟨0, 8, 9, []⟩] =
      ([⟨0, 0, 10, []⟩, ⟨0, 8, 11, []⟩] : List WRow).set 1
        (setClose ⟨0, 8, 11, []⟩ 9)) ∧
    0 + 7 < 8 := by decide

/-- C5 counterexample: an entity on three consecutive business days whose
middle row has a null close (but a present open) is left uninterpolated —
the missing-day mask of line 93 only watches the open column — and the
dropna of line 111 then removes the middle row, so the output holds the
consecutive entity dates 0 and 2 with the business day 1 strictly between
them. -/
theorem c5_null_close_row_creates_two_bday_gap :
    ¬ noGapProperty [] [⟨0, 0, some 1, some 1, some 1, some 1, some 1⟩,
                        ⟨0, 1, some 1, some 1, some 1, none, some 1⟩,
                        ⟨0, 2, some 1, some 1, some 1, some 1, some 1⟩] := by
  intro h
  have hb := h 0 0 2 (by decide) (by decide) (by decide) (by decide) 1 (by decide) (by decide)
  exact absurd hb (by decide)

/-- C7 counterexample: an entity with full rows on the business days 0 to 4
and one extra row on the Saturday 5 covers every business day between its
min and max date, yet the gap filler's reindex drops the Saturday row, so
the output values differ from the input (5 rows against 6). -/
theorem c7_extra_nonbusiness_row_dropped :
    ¬ identityOnCovered []
        [⟨0, 0, some 1, some 1, some 1, some 1, some 1⟩,
         ⟨0, 1, some 1, some 1, some 1, some 1, some 1⟩,
         ⟨0, 2, some 1, some 1, some 1, some 1, some 1⟩,
         ⟨0, 3, some 1, some 1, some 1, some 1, some 1⟩,
         ⟨0, 4, some 1, some 1, some 1, some 1, some 1⟩,
         ⟨0, 5, some 1, some 1, some 1, some 1, some 1⟩] := by
  intro h
  have hp := h 0 (by decide)
  have hl := hp.length_eq
  revert hl
  decide

/-- C1: on an input with unique (entity, date) keys, create_target keeps
exactly the input rows (up to the re-sort), and each row's target is: NaN
exactly when the entity has no own row dated at or after date +
prediction_days calendar days; otherwise 1 when the entity's first such row
(the one of minimal date at or after the cutoff) has a close strictly
greater than the row's close, else 0. Only same-entity rows take part. -/
theorem c1_forward_asof_labeling (rows : List WRow) (pd : Nat) (hk : nodupKeys rows) :
    ((createTargetRows rows pd).map (·.row)).Perm rows ∧
    ∀ tr ∈ createTargetRows rows pd,
      (tr.target = none ↔
        ∀ s ∈ rows, s.stock_id = tr.row.stock_id → s.date < tr.row.date + pd) ∧
      (∀ s ∈ rows, s.stock_id = tr.row.stock_id → tr.row.date + pd ≤ s.date →
        (∀ u ∈ rows, u.stock_id = tr.row.stock_id → tr.row.date + pd ≤ u.date →
          s.date ≤ u.date) →
        tr.target = some (if tr.row.close < s.close then 1 else 0)) := by
  refine ⟨?_, fun tr htr => ⟨(target_spec hk htr).2.1, (target_spec hk htr).2.2⟩⟩
  rw [createTargetRows_map_row]
  exact sortRows_perm rows

/-- Witness for C1 at a three-row input holding two entities: the labeled
rows are a permutation of the input, and the row of entity 0 at date 0 gets
target 1 from the future close 11 at date 8 (the first date at or past
0 + 7). -/
theorem c1_forward_asof_labeling_witness :
    nodupKeys [⟨0, 0, 10, []⟩, ⟨0, 8, 11, []⟩, ⟨1, 0, 20, []⟩] ∧
    ((createTargetRows [⟨0, 0, 10, []⟩, ⟨0, 8, 11, []⟩, ⟨1, 0, 20, []⟩] 7).map
        (·.row)).Perm [⟨0, 0, 10, []⟩, ⟨0, 8, 11, []⟩, ⟨1, 0, 20, []⟩] ∧
    (⟨⟨0, 0, 10, []⟩, some 1⟩ : TRow).target =
      some (if (10 : ℚ) < (11 : ℚ) then 1 else 0) := by
  have hk : nodupKeys [⟨0, 0, 10, []⟩, ⟨0, 8, 11, []⟩, ⟨1, 0, 20, []⟩] := by decide
  have h := c1_forward_asof_labeling [⟨0, 0, 10, []⟩, ⟨0, 8, 11, []⟩, ⟨1, 0, 20, []⟩] 7 hk
  refine ⟨hk, h.1, ?_⟩
  exact (h.2 ⟨⟨0, 0, 10, []⟩, some 1⟩ (by decide)).2 ⟨0, 8, 11, []⟩
    (by decide) (by decide) (by decide) (by decide)

/-- C2 amended: the target of the row keyed (sid, d) depends only on that
row's own close and on the keys and at-or-after-cutoff closes of its
entity's rows: in two runs of create_target on inputs that differ only in
the close price of one row that is not the (sid, d) row and whose date lies
strictly before the cutoff d + prediction_days, the (sid, d) row's target is
unchanged. (Changing a close at or after the cutoff can legitimately change
the target, which is computed from exactly such a row.) -/
theorem c2_leakage_free_amended (rows : List WRow) (pd p : Nat) (c : ℚ) (sid d : Nat)
    (hp : p < rows.length) (hk : nodupKeys rows)
    (hbefore : rows[p].date < d + pd)
    (hnotself : keyOf rows[p] ≠ (sid, d)) :
    ∀ tr₁ ∈ createTargetRows rows pd,
      ∀ tr₂ ∈ createTargetRows (rows.set p (setClose rows[p] c)) pd,
        keyOf tr₁.row = (sid, d) → keyOf tr₂.row = (sid, d) →
        tr₁.target = tr₂.target := by
  intro tr₁ htr₁ tr₂ htr₂ hkey₁ hkey₂
  set rows₂ := rows.set p (setClose rows[p] c) with hrows₂
  have hplen : p < (rows.map keyOf).length := by simpa using hp
  have hkeys : rows₂.map keyOf = rows.map keyOf := by
    rw [hrows₂, List.map_set]
    have hmp : keyOf (setClose (rows[p]) c) = (rows.map keyOf)[p] := by
      simp [setClose, keyOf]
    rw [hmp]
    exact list_set_self _ p hplen
  have hk₂ : nodupKeys rows₂ := by unfold nodupKeys; rw [hkeys]; exact hk
  have hchar₁ := target_spec hk htr₁
  have hchar₂ := target_spec hk₂ htr₂
  -- a membership in either run transfers to the other at the level of keys
  have htrans₂₁ : ∀ s ∈ rows₂, ∃ s' ∈ rows, keyOf s' = keyOf s := by
    intro s hs
    have : keyOf s ∈ rows.map keyOf := by
      rw [← hkeys]; exact List.mem_map_of_mem _ hs
    rcases List.mem_map.mp this with ⟨s', hs', he⟩
    exact ⟨s', hs', he⟩
  have htrans₁₂ : ∀ s ∈ rows, ∃ s' ∈ rows₂, keyOf s' = keyOf s := by
    intro s hs
    have : keyOf s ∈ rows₂.map keyOf := by
      rw [hkeys]; exact List.mem_map_of_mem _ hs
    rcases List.mem_map.mp this with ⟨s', hs', he⟩
    exact ⟨s', hs', he⟩
  -- the two labeled rows carry the same close price
  have hr₂mem : tr₂.row ∈ rows := by
    have hmemset : tr₂.row ∈ rows.set p (setClose (rows[p]) c) := by
      rw [← hrows₂]; exact hchar₂.1
    rcases List.mem_or_eq_of_mem_set hmemset with h | h
    · exact h
    · exfalso
      apply hnotself
      have he : keyOf tr₂.row = keyOf (rows[p]) := by rw [h]; rfl
      rw [← he, hkey₂]
  have hrow_eq : tr₁.row = tr₂.row := by
    refine List.inj_on_of_nodup_map hk hchar₁.1 hr₂mem ?_
    rw [hkey₁, hkey₂]
  have hsid₁ : tr₁.row.stock_id = sid := congrArg Prod.fst hkey₁
  have hdate₁ : tr₁.row.date = d := congrArg Prod.snd hkey₁
  have hsid₂ : tr₂.row.stock_id = sid := congrArg Prod.fst hkey₂
  have hdate₂ : tr₂.row.date = d := congrArg Prod.snd hkey₂
  by_cases hfut : ∃ s ∈ rows, s.stock_id = sid ∧ d + pd ≤ s.date
  · -- a future match exists; the minimal one decides both targets
    rcases exists_min_date hfut with ⟨m, hm, ⟨hmsid, hmcut⟩, hmin⟩
    have hmne : m ≠ rows[p] := by
      intro he
      rw [he] at hmcut
      omega
    have hm₂ : m ∈ rows₂ := by
      rcases List.mem_iff_getElem.mp hm with ⟨q, hq, hqe⟩
      by_cases hqp : q = p
      · subst hqp
        exact absurd hqe.symm hmne
      · have hg : rows₂[q]? = some m := by
          rw [hrows₂, List.getElem?_set_ne (fun he => hqp he.symm),
              List.getElem?_eq_getElem hq, hqe]
        exact List.getElem?_mem hg
    have ht₁ : tr₁.target = some (if tr₁.row.close < m.close then 1 else 0) := by
      apply hchar₁.2.2 m hm (by rw [hsid₁]; exact hmsid) (by rw [hdate₁]; exact hmcut)
      intro u hu husid hucut
      exact hmin u hu ⟨by rw [← hsid₁]; exact husid, by rw [← hdate₁]; exact hucut⟩
    have ht₂ : tr₂.target = some (if tr₂.row.close < m.close then 1 else 0) := by
      apply hchar₂.2.2 m hm₂ (by rw [hsid₂]; exact hmsid) (by rw [hdate₂]; exact hmcut)
      intro u hu husid hucut
      rcases htrans₂₁ u hu with ⟨u', hu', hue⟩
      have hu'sid : u'.stock_id = u.stock_id := congrArg Prod.fst hue
      have hu'date : u'.date = u.date := congrArg Prod.snd hue
      rw [← hu'date]
      refine hmin u' hu' ⟨?_, ?_⟩
      · rw [hu'sid, ← hsid₂]; exact husid
      · rw [hu'date, ← hdate₂]; exact hucut
    rw [ht₁, ht₂, hrow_eq]
  · -- no future match in either run: both targets are NaN
    have hfut' : ∀ s ∈ rows, s.stock_id = sid → s.date < d + pd := by
      intro s hs hssid
      by_contra hnot
      exact hfut ⟨s, hs, hssid, Nat.le_of_not_lt hnot⟩
    have ht₁ : tr₁.target = none := by
      apply hchar₁.2.1.mpr
      intro s hs hssid
      rw [hdate₁]
      exact hfut' s hs (by rw [hssid, hsid₁])
    have ht₂ : tr₂.target = none := by
      apply hchar₂.2.1.mpr
      intro s hs hssid
      rcases htrans₂₁ s hs with ⟨s', hs', hse⟩
      have hssid' : s'.stock_id = s.stock_id := congrArg Prod.fst hse
      have hsdate' : s'.date = s.date := congrArg Prod.snd hse
      rw [hdate₂, ← hsdate']
      exact hfut' s' hs' (by rw [hssid', hssid, hsid₂])
    rw [ht₁, ht₂]

/-- Witness for C2 amended: with cutoff 0 + 7, changing the close of the
in-horizon row at date 3 from 11 to 2 leaves the row keyed (0, 0) labeled
with the same target (1) in both runs. -/
theorem c2_leakage_free_amended_witness :
    (⟨⟨0, 0, 10, []⟩, some 1⟩ : TRow) ∈
      createTargetRows [⟨0, 0, 10, []⟩, ⟨0, 3, 11, []⟩, ⟨0, 8, 12, []⟩] 7 ∧
    (⟨⟨0, 0, 10, []⟩, some 1⟩ : TRow) ∈
      createTargetRows
        ([⟨0, 0, 10, []⟩, ⟨0, 3, 11, []⟩, ⟨0, 8, 12, []⟩].set 1
          (setClose ([⟨0, 0, 10, []⟩, ⟨0, 3, 11, []⟩,
            ⟨0, 8, 12, []⟩] : List WRow)[1] 2)) 7 ∧
    (⟨⟨0, 0, 10, []⟩, some 1⟩ : TRow).target =
      (⟨⟨0, 0, 10, []⟩, some 1⟩ : TRow).target := by
  refine ⟨by decide, by decide, ?_⟩
  exact c2_leakage_free_amended [⟨0, 0, 10, []⟩, ⟨0, 3, 11, []⟩, ⟨0, 8, 12, []⟩] 7 1 2 0 0
    (by decide) (by decide) (by decide) (by decide)
    ⟨⟨0, 0, 10, []⟩, some 1⟩ (by decide)
    ⟨⟨0, 0, 10, []⟩, some 1⟩ (by decide)
    (by decide) (by decide)

/-- C3: per stock (with the schema's unique dates), the emitted windows are
exactly those of the end positions W-1 .. len-1 whose end row has a present
target and whose W-row slice has no null feature; a stock with fewer than W
rows yields zero windows; and a slice holding a null feature anywhere — in
particular in a middle row — is not emitted. -/
theorem c3_exact_window_emission (stockRows : List TRow) (W : Nat) (hW : 1 ≤ W)
    (hd : (stockRows.map (fun tr => tr.row.date)).Nodup) :
    windowsForStock stockRows W =
      (List.range' (W - 1) (stockRows.length - (W - 1))).filterMap
        (emitSpec stockRows W) ∧
    (stockRows.length < W → windowsForStock stockRows W = []) ∧
    (∀ e r i tr, stockRows.get? e = some r → e + 1 - W ≤ i → i ≤ e →
      stockRows.get? i = some tr → hasNullFeature tr = true →
      emitSpec stockRows W e = none) := by
  refine ⟨?_, ?_, ?_⟩
  · unfold windowsForStock
    by_cases hlt : stockRows.length < W
    · rw [if_pos hlt]
      have h0 : stockRows.length - (W - 1) = 0 := by omega
      rw [h0]
      rfl
    · rw [if_neg hlt]
      apply List.filterMap_congr
      intro e he'
      have heb := List.mem_range'_1.mp he'
      have helen : e < stockRows.length := by omega
      have hr : stockRows.get? e = some (stockRows[e]) := by
        rw [List.get?_eq_getElem?]
        exact List.getElem?_eq_getElem helen
      unfold emitSpec
      rw [hr]
      have hloc : locTarget stockRows (stockRows[e]).row.date = (stockRows[e]).target := by
        unfold locTarget
        rw [find?_date_nodup hd hr]
      dsimp only
      rw [hloc]
  · intro hlt
    unfold windowsForStock
    rw [if_pos hlt]
  · intro e r i tr he hi1 hi2 hti htn
    have helen : e < stockRows.length := by
      rw [List.get?_eq_getElem?] at he
      exact (List.getElem?_eq_some_iff.mp he).1
    have hilen : i < stockRows.length := Nat.lt_of_le_of_lt hi2 helen
    unfold emitSpec
    rw [he]
    have hmem : tr ∈ (stockRows.drop (e + 1 - W)).take W := by
      have hidx : i - (e + 1 - W) < W := by omega
      have hd1 : i - (e + 1 - W) < (stockRows.drop (e + 1 - W)).length := by
        rw [List.length_drop]
        omega
      have hg : ((stockRows.drop (e + 1 - W)).take W)[i - (e + 1 - W)]?
          = some tr := by
        rw [List.getElem?_take, if_pos hidx, List.getElem?_drop]
        have harith : e + 1 - W + (i - (e + 1 - W)) = i := by omega
        rw [harith, ← List.get?_eq_getElem?]
        exact hti
      exact List.getElem?_mem hg
    have hany : ((stockRows.drop (e + 1 - W)).take W).any hasNullFeature = true :=
      List.any_eq_true.mpr ⟨tr, hmem, htn⟩
    dsimp only
    cases r.target with
    | none => rfl
    | some t => simp [hany]

/-- Witness for C3 at a three-row stock whose middle row carries a null
feature: with window size 2, the candidate window ending at position 1 has a
present target but a null feature inside, so it is suppressed and the stock
emits zero windows; a one-row stock also emits zero windows for W = 2. -/
theorem c3_exact_window_emission_witness :
    (windowsForStock
        (createTargetRows [⟨0, 0, 10, [some 1]⟩, ⟨0, 1, 11, [none]⟩,
          ⟨0, 2, 12, [some 3]⟩] 1) 2 =
      (List.range' 1 ((createTargetRows [⟨0, 0, 10, [some 1]⟩, ⟨0, 1, 11, [none]⟩,
          ⟨0, 2, 12, [some 3]⟩] 1).length - 1)).filterMap
        (emitSpec (createTargetRows [⟨0, 0, 10, [some 1]⟩, ⟨0, 1, 11, [none]⟩,
          ⟨0, 2, 12, [some 3]⟩] 1) 2)) ∧
    (emitSpec (createTargetRows [⟨0, 0, 10, [some 1]⟩, ⟨0, 1, 11, [none]⟩,
        ⟨0, 2, 12, [some 3]⟩] 1) 2 1 = none) ∧
    (windowsForStock (createTargetRows [⟨0, 0, 10, [some 1]⟩] 1) 2 = []) := by
  have h := c3_exact_window_emission
    (createTargetRows [⟨0, 0, 10, [some 1]⟩, ⟨0, 1, 11, [none]⟩,
      ⟨0, 2, 12, [some 3]⟩] 1) 2 (by decide) (by decide)
  have h1 := c3_exact_window_emission (createTargetRows [⟨0, 0, 10, [some 1]⟩] 1) 2
    (by decide) (by decide)
  refine ⟨h.1, ?_, h1.2.1 (by decide)⟩
  exact h.2.2 1 ⟨⟨0, 1, 11, [none]⟩, some 1⟩ 1 ⟨⟨0, 1, 11, [none]⟩, some 1⟩
    (by decide) (by decide) (by decide) (by decide) (by decide)

/-- C4: with unique (entity, date) keys, every emitted window has exactly
window_size rows, time_idx 0..W-1 assigned in ascending date order, one
entity id, prediction_date equal to the date of the window's last row on
every row, and a single target in 0 or 1 identical across the window's rows
and taken from the labeled row of the entity at the prediction date. -/
theorem c4_emitted_window_shape (rows : List WRow) (pd W : Nat) (hW : 1 ≤ W)
    (hk : nodupKeys rows) :
    ∀ w ∈ allWindows (createTargetRows rows pd) W,
      w.length = W ∧
      w.map (·.time_idx) = List.range W ∧
      (w.map (·.date)).Chain' (· < ·) ∧
      ∃ hne : w ≠ [], ∃ sid t,
        (t = 0 ∨ t = 1) ∧
        (∀ o ∈ w, o.stock_id = sid ∧ o.prediction_date = (w.getLast hne).date ∧
          o.target = t) ∧
        ∃ tr ∈ createTargetRows rows pd, tr.row.stock_id = sid ∧
          tr.row.date = (w.getLast hne).date ∧ tr.target = some t := by
  intro w hw
  rcases List.mem_flatMap.mp hw with ⟨sid, hsid, hwstock⟩
  set labeled := createTargetRows rows pd with hlab
  set stockRows := labeled.filter (fun tr => tr.row.stock_id == sid) with hstock
  unfold windowsForStock at hwstock
  by_cases hlen : stockRows.length < W
  · rw [if_pos hlen] at hwstock
    exact absurd hwstock (List.not_mem_nil w)
  rw [if_neg hlen] at hwstock
  rcases List.mem_filterMap.mp hwstock with ⟨e, he, hemit⟩
  have heb := List.mem_range'_1.mp he
  have helen : e < stockRows.length := by omega
  have hget : stockRows.get? e = some (stockRows[e]) := by
    rw [List.get?_eq_getElem?]
    exact List.getElem?_eq_getElem helen
  rw [hget] at hemit
  dsimp only at hemit
  cases hloc : locTarget stockRows (stockRows[e]).row.date with
  | none => rw [hloc] at hemit; exact absurd hemit (by simp)
  | some t =>
  rw [hloc] at hemit
  dsimp only at hemit
  by_cases hanyn : ((stockRows.drop (e + 1 - W)).take W).any hasNullFeature = true
  · rw [if_pos hanyn] at hemit
    exact absurd hemit (by simp)
  rw [if_neg hanyn] at hemit
  have hw_eq : w = decorateWindow ((stockRows.drop (e + 1 - W)).take W)
      (stockRows[e]).row.date t := (Option.some.inj hemit).symm
  set win := (stockRows.drop (e + 1 - W)).take W with hwin
  -- lengths
  have hdlen : (stockRows.drop (e + 1 - W)).length = stockRows.length - (e + 1 - W) :=
    List.length_drop _ _
  have hWle : W ≤ (stockRows.drop (e + 1 - W)).length := by rw [hdlen]; omega
  have hwinlen : win.length = W := by
    rw [hwin, List.length_take, Nat.min_eq_left hWle]
  have hwlen : w.length = W := by
    rw [hw_eq, decorateWindow_length, hwinlen]
  have hne : w ≠ [] := by
    apply List.ne_nil_of_length_pos
    omega
  -- strictly ascending dates inside the stock slice
  have hstockdates : stockRows.Pairwise (fun a b => a.row.date < b.row.date) := by
    rw [hstock]
    exact tgroup_dates_lt (labeled_pairwise rows pd) (labeled_keys_nodup rows pd hk) sid
  have hwinsub : win.Sublist stockRows :=
    ((stockRows.drop (e + 1 - W)).take_sublist W).trans
      (stockRows.drop_sublist (e + 1 - W))
  have hwindates : win.Pairwise (fun a b => a.row.date < b.row.date) :=
    List.Pairwise.sublist hwinsub hstockdates
  have hchain : (w.map (·.date)).Chain' (· < ·) := by
    rw [hw_eq, decorateWindow_map_date]
    exact (List.pairwise_map.mpr hwindates).chain'
  -- the window's last row is the end row of the slice
  have hend : win[W - 1]? = some (stockRows[e]) := by
    rw [hwin, List.getElem?_take, if_pos (by omega), List.getElem?_drop]
    have harith : e + 1 - W + (W - 1) = e := by omega
    rw [harith]
    exact List.getElem?_eq_getElem helen
  have hlast : (w.getLast hne).date = (stockRows[e]).row.date := by
    have hk1 : w.length - 1 < win.length := by omega
    have h1 := decorateWindow_getElem_date win ((stockRows[e]).row.date) t
      (w.length - 1) hk1
    rw [← hw_eq] at h1
    have h2 : w[w.length - 1]? = some (w.getLast hne) := by
      rw [List.getLast_eq_getElem]
      exact List.getElem?_eq_getElem _
    rw [h2] at h1
    have h3 : win[w.length - 1] = stockRows[e] := by
      have h4 : win[w.length - 1]? = some (stockRows[e]) := by
        rw [show w.length - 1 = W - 1 from by omega]
        exact hend
      rw [List.getElem?_eq_getElem hk1] at h4
      exact Option.some.inj h4
    rw [h3] at h1
    exact Option.some.inj h1
  -- locTarget found the labeled row at the prediction date
  have hfind : ∃ tr', stockRows.find?
      (fun x => x.row.date == (stockRows[e]).row.date) = some tr' ∧
      tr'.target = some t := by
    unfold locTarget at hloc
    cases hf : stockRows.find? (fun x => x.row.date == (stockRows[e]).row.date) with
    | none => rw [hf] at hloc; exact absurd hloc (by simp)
    | some tr' => rw [hf] at hloc; exact ⟨tr', rfl, hloc⟩
  rcases hfind with ⟨tr', hf, htr't⟩
  have htr'mem : tr' ∈ stockRows := List.mem_of_find?_eq_some hf
  have htr'date : tr'.row.date = (stockRows[e]).row.date := by
    simpa using List.find?_some hf
  have htr'sid : tr'.row.stock_id = sid := by
    rw [hstock] at htr'mem
    simpa using (List.mem_filter.mp htr'mem).2
  have htr'lab : tr' ∈ labeled := by
    rw [hstock] at htr'mem
    exact List.mem_of_mem_filter htr'mem
  have ht01 : t = 0 ∨ t = 1 := by
    rcases createTargetRows_target_cases (hlab ▸ htr'lab) with h | h | h
    · rw [htr't] at h; exact absurd h (by simp)
    · rw [htr't] at h; exact Or.inl (by simpa using h)
    · rw [htr't] at h; exact Or.inr (by simpa using h)
  refine ⟨hwlen, by rw [hw_eq, decorateWindow_map_time_idx, hwinlen], hchain,
    hne, sid, t, ht01, ?_, tr', htr'lab, htr'sid, by rw [hlast]; exact htr'date, htr't⟩
  intro o ho
  rw [hw_eq] at ho
  rcases mem_decorateWindow ho with ⟨hpd, hot, tr'', htr''win, hosid⟩
  refine ⟨?_, by rw [hpd, hlast], hot⟩
  have htr''stock : tr'' ∈ stockRows := hwinsub.mem htr''win
  rw [hosid]
  rw [hstock] at htr''stock
  simpa using (List.mem_filter.mp htr''stock).2

/-- Witness for C4: the one window emitted from a three-row stock with W = 2
and prediction_days = 1 has 2 rows, time_idx 0 and 1, and ascending dates. -/
theorem c4_emitted_window_shape_witness :
    ([⟨0, 0, 10, [some 1], 0, 1, 1⟩, ⟨0, 1, 11, [some 2], 1, 1, 1⟩] : List OutRow) ∈
      allWindows (createTargetRows [⟨0, 0, 10, [some 1]⟩, ⟨0, 1, 11, [some 2]⟩,
        ⟨0, 2, 12, [some 3]⟩] 1) 2 ∧
    ([⟨0, 0, 10, [some 1], 0, 1, 1⟩,
      ⟨0, 1, 11, [some 2], 1, 1, 1⟩] : List OutRow).length = 2 ∧
    ([⟨0, 0, 10, [some 1], 0, 1, 1⟩, ⟨0, 1, 11, [some 2], 1, 1, 1⟩] : List OutRow).map
      (·.time_idx) = List.range 2 ∧
    (([⟨0, 0, 10, [some 1], 0, 1, 1⟩, ⟨0, 1, 11, [some 2], 1, 1, 1⟩] : List OutRow).map
      (·.date)).Chain' (· < ·) := by
  have hmem : ([⟨0, 0, 10, [some 1], 0, 1, 1⟩,
      ⟨0, 1, 11, [some 2], 1, 1, 1⟩] : List OutRow) ∈
      allWindows (createTargetRows [⟨0, 0, 10, [some 1]⟩, ⟨0, 1, 11, [some 2]⟩,
        ⟨0, 2, 12, [some 3]⟩] 1) 2 := by decide
  have h := c4_emitted_window_shape [⟨0, 0, 10, [some 1]⟩, ⟨0, 1, 11, [some 2]⟩,
    ⟨0, 2, 12, [some 3]⟩] 1 2 (by decide) (by decide) _ hmem
  exact ⟨hmem, h.1, h.2.1, h.2.2.1⟩

/-- The gap filler is the identity on a stock whose date column is exactly
its expected business-day calendar and whose rows have no null field. -/
theorem entityGapFill_identity {H : List Nat} {sid : Nat} {grp : List PriceRow}
    (hsid : ∀ r ∈ grp, r.stock_id = sid)
    (hfull : ∀ r ∈ grp, fullRow r = true)
    (hexact : grp.map (·.date) = expectedOf H grp)
    (hne : grp ≠ []) :
    entityGapFill H sid grp = grp := by
  have hne' : grp.isEmpty = false := by
    cases grp with
    | nil => exact absurd rfl hne
    | cons a l => rfl
  have hnd : (grp.map (·.date)).Nodup := by
    rw [hexact]
    unfold expectedOf
    exact bdaysBetween_nodup _ _ _
  have hlen : (expectedOf H grp).length = grp.length := by
    rw [← hexact, List.length_map]
  have hfields : ∀ r ∈ grp, r.opn.isSome ∧ r.high.isSome ∧ r.low.isSome ∧
      r.close.isSome ∧ r.volume.isSome := by
    intro r hr
    have := hfull r hr
    unfold fullRow at this
    simp only [Bool.and_eq_true] at this
    exact ⟨this.1.1.1.1, this.1.1.1.2, this.1.1.2, this.1.2, this.2⟩
  have hre : ∀ i, (hig : i < grp.length) →
      (reindexOf H grp)[i]? = some (some (grp[i])) := by
    intro i hig
    have hi : i < (expectedOf H grp).length := by rw [hlen]; exact hig
    unfold reindexOf
    rw [List.getElem?_map, List.getElem?_eq_getElem hi]
    have hdate : (expectedOf H grp)[i] = (grp[i]).date := by
      have h2 : (grp.map (·.date))[i]? = some ((grp[i]).date) := by
        rw [List.getElem?_map, List.getElem?_eq_getElem hig]
        rfl
      rw [hexact, List.getElem?_eq_getElem hi] at h2
      exact Option.some.inj h2
    have hget : grp.get? i = some (grp[i]) := by
      rw [List.get?_eq_getElem?]
      exact List.getElem?_eq_getElem hig
    rw [hdate, Option.map_some', find?_pdate_nodup hnd hget]
  have hdf : doFillOf H grp = false := by
    unfold doFillOf
    rw [List.any_eq_false]
    intro x hx
    rcases List.mem_map.mp hx with ⟨o, ho, rfl⟩
    rcases List.mem_iff_getElem.mp ho with ⟨j, hj, hje⟩
    have hj' : j < (expectedOf H grp).length := by
      rw [← reindexOf_length H grp]
      exact hj
    have hjg : j < grp.length := by rw [← hlen]; exact hj'
    have hoj := hre j hjg
    rw [List.getElem?_eq_getElem hj, hje] at hoj
    have hoe : o = some (grp[j]) := Option.some.inj hoj
    subst hoe
    obtain ⟨w, hw⟩ := Option.isSome_iff_exists.mp
      (hfields (grp[j]) (List.getElem_mem hjg)).1
    simp [hw]
  have hcell : ∀ (f : PriceRow → Option ℚ), ∀ i, (hig : i < grp.length) →
      gapCell H grp f i = f (grp[i]) := by
    intro f i hig
    unfold gapCell
    rw [if_neg (by rw [hdf]; simp), List.getD_eq_getElem?_getD, colOf_getElem?,
      hre i hig]
    rfl
  have hallsome : ∀ i, i < (expectedOf H grp).length →
      (gapCell H grp (fun r => r.opn) i).isSome ∧
      (gapCell H grp (fun r => r.high) i).isSome ∧
      (gapCell H grp (fun r => r.low) i).isSome ∧
      (gapCell H grp (fun r => r.close) i).isSome ∧
      (gapCell H grp (fun r => r.volume) i).isSome := by
    intro i hi
    have hig : i < grp.length := by rw [← hlen]; exact hi
    have hg := hfields _ (List.getElem_mem hig)
    rw [hcell (fun r => r.opn) i hig, hcell (fun r => r.high) i hig,
      hcell (fun r => r.low) i hig, hcell (fun r => r.close) i hig,
      hcell (fun r => r.volume) i hig]
    exact hg
  rw [entityGapFill_eq_map hne' hallsome]
  apply List.ext_getElem?
  intro j
  by_cases hj : j < (expectedOf H grp).length
  · have hjg : j < grp.length := by rw [← hlen]; exact hj
    rw [List.getElem?_map, List.getElem?_range hj, List.getElem?_eq_getElem hjg]
    simp only [Option.map_some']
    have hdate : (expectedOf H grp).getD j 0 = (grp[j]).date := by
      rw [List.getD_eq_getElem?_getD, List.getElem?_eq_getElem hj]
      have h2 : (grp.map (·.date))[j]? = some ((grp[j]).date) := by
        rw [List.getElem?_map, List.getElem?_eq_getElem hjg]
        rfl
      rw [hexact, List.getElem?_eq_getElem hj] at h2
      exact Option.some.inj h2
    rw [hcell (fun r => r.opn) j hjg, hcell (fun r => r.high) j hjg,
      hcell (fun r => r.low) j hjg, hcell (fun r => r.close) j hjg,
      hcell (fun r => r.volume) j hjg, hdate,
      ← hsid (grp[j]) (List.getElem_mem hjg)]
  · have h1 : ((List.range (expectedOf H grp).length).map
        (fun i => (⟨sid, (expectedOf H grp).getD i 0,
          gapCell H grp (fun r => r.opn) i, gapCell H grp (fun r => r.high) i,
          gapCell H grp (fun r => r.low) i, gapCell H grp (fun r => r.close) i,
          gapCell H grp (fun r => r.volume) i⟩ : PriceRow)))[j]? = none := by
      rw [List.getElem?_eq_none_iff, List.length_map, List.length_range]
      omega
    have h2 : grp[j]? = none := by
      rw [List.getElem?_eq_none_iff]
      omega
    rw [h1, h2]

/-- C7 amended: handle_missing_trading_days returns an entity's rows with
values equal and column set equal (as a multiset — row order and metadata
may differ) whenever that entity's dates are exactly the business days
between its min and max date (covered with no extra rows on non-business
days) and its rows carry no null numeric field. -/
theorem c7_identity_amended (H : List Nat) (rows : List PriceRow) (sid : Nat)
    (hfull : ∀ r ∈ rows.filter (fun r => r.stock_id == sid), fullRow r = true)
    (hne : rows.filter (fun r => r.stock_id == sid) ≠ [])
    (hexact : (rows.filter (fun r => r.stock_id == sid)).map (·.date) =
      expectedOf H (rows.filter (fun r => r.stock_id == sid))) :
    ((handle_missing_trading_days H rows).filter (fun r => r.stock_id == sid)).Perm
      (rows.filter (fun r => r.stock_id == sid)) := by
  have hsidmem : sid ∈ rows.map (·.stock_id) := by
    cases hg : rows.filter (fun r => r.stock_id == sid) with
    | nil => exact absurd hg hne
    | cons a l =>
      have ha : a ∈ rows.filter (fun r => r.stock_id == sid) := by
        rw [hg]
        exact List.mem_cons_self a l
      have h1 := List.mem_of_mem_filter ha
      have h2 : a.stock_id = sid := by simpa using (List.mem_filter.mp ha).2
      rw [← h2]
      exact List.mem_map_of_mem _ h1
  have hid := entityGapFill_identity
    (fun r hr => by simpa using (List.mem_filter.mp hr).2) hfull hexact hne
  have hperm := handle_missing_filter H rows sid hsidmem
  rw [hid] at hperm
  exact hperm

/-- Witness for C7 amended: an entity with full rows on the consecutive
business days 0 and 1 passes through the gap filler with its values
unchanged. -/
theorem c7_identity_amended_witness :
    ((handle_missing_trading_days []
        [(⟨0, 0, some 1, some 2, some 3, some 4, some 5⟩ : PriceRow),
         ⟨0, 1, some 6, some 7, some 8, some 9, some 10⟩]).filter
      (fun r => r.stock_id == 0)).Perm
      ([(⟨0, 0, some 1, some 2, some 3, some 4, some 5⟩ : PriceRow),
        ⟨0, 1, some 6, some 7, some 8, some 9, some 10⟩].filter
      (fun r => r.stock_id == 0)) := by
  exact c7_identity_amended [] [⟨0, 0, some 1, some 2, some 3, some 4, some 5⟩,
    ⟨0, 1, some 6, some 7, some 8, some 9, some 10⟩] 0
    (by decide) (by decide) (by decide)

/-- C5 amended: for inputs whose rows carry no null in any numeric field,
every entity present in the gap filler's output has no two consecutive
dates separated by a business day — no gap exceeds one business day. (The
counterexample shows the restriction to null-free rows is needed: a null
close under a present open is neither interpolated nor masked, and its row
is dropped, splitting the calendar.) -/
theorem c5_no_gaps_amended (H : List Nat) (rows : List PriceRow)
    (hfull : ∀ r ∈ rows, fullRow r = true) : noGapProperty H rows := by
  intro sid d₁ d₂ h₁ h₂ hlt hcons b hb₂ hb₁
  cases hbday : isBDay H b with
  | false => rfl
  | true =>
  exfalso
  obtain ⟨r₁, hr₁, hsid₁, hdate₁⟩ := h₁
  obtain ⟨r₂, hr₂, hsid₂, hdate₂⟩ := h₂
  have hm₁ := mem_handle_missing hr₁
  have hm₂ := mem_handle_missing hr₂
  rw [hsid₁] at hm₁
  rw [hsid₂] at hm₂
  set grp := rows.filter (fun x => x.stock_id == sid) with hgrp
  have hfullgrp : ∀ r ∈ grp, fullRow r = true := fun r hr =>
    hfull r (List.mem_of_mem_filter hr)
  rcases @entityGapFill_dates_full H sid grp hfullgrp with hnil | hdates
  · rw [hnil] at hm₁
    exact absurd hm₁.2 (List.not_mem_nil r₁)
  · have hd₁ : d₁ ∈ expectedOf H grp := by
      rw [← hdates, ← hdate₁]
      exact List.mem_map_of_mem _ hm₁.2
    have hd₂ : d₂ ∈ expectedOf H grp := by
      rw [← hdates, ← hdate₂]
      exact List.mem_map_of_mem _ hm₂.2
    unfold expectedOf at hd₁ hd₂
    rw [mem_bdaysBetween] at hd₁ hd₂
    have hbmem : b ∈ expectedOf H grp := by
      unfold expectedOf
      rw [mem_bdaysBetween]
      exact ⟨by omega, by omega, hbday⟩
    rw [← hdates] at hbmem
    rcases List.mem_map.mp hbmem with ⟨rb, hrb, hrbdate⟩
    have hrbsid : rb.stock_id = sid := entityGapFill_stockid hrb
    have hrbout : rb ∈ handle_missing_trading_days H rows :=
      handle_missing_mem_of hm₁.1 hrb
    exact hcons b hb₂ hb₁ ⟨rb, hrbout, hrbsid, hrbdate⟩

/-- Witness for C5 amended: an entity with full rows on the Friday 4 and the
Monday 7 — with the weekend days 5 and 6, not business days, in between —
satisfies the amended no-gap property. -/
theorem c5_no_gaps_amended_witness :
    (∀ r ∈ [(⟨0, 4, some 1, some 1, some 1, some 1, some 1⟩ : PriceRow),
            ⟨0, 7, some 1, some 1, some 1, some 1, some 1⟩], fullRow r = true) ∧
    isBDay [] 5 = false ∧ isBDay [] 6 = false := by
  have hf : ∀ r ∈ [(⟨0, 4, some 1, some 1, some 1, some 1, some 1⟩ : PriceRow),
      ⟨0, 7, some 1, some 1, some 1, some 1, some 1⟩], fullRow r = true := by decide
  have h := c5_no_gaps_amended [] [⟨0, 4, some 1, some 1, some 1, some 1, some 1⟩,
    ⟨0, 7, some 1, some 1, some 1, some 1, some 1⟩] hf
  exact ⟨hf,
    h 0 4 7 (by decide) (by decide) (by decide) (by decide) 5 (by decide) (by decide),
    h 0 4 7 (by decide) (by decide) (by decide) (by decide) 6 (by decide) (by decide)⟩

/-- C8: on scenario A — an entity with closes 10, 11, missing, 14 on four
consecutive expected business days — the gap filler sets the missing day's
close to 12.5 (the linear midpoint of 11 and 14); in general, a null cell
with present values on both sides is filled by positional linear
interpolation between its nearest present neighbours, and a null cell with
no present value before it is back-filled with the first present value after
it. -/
theorem c8_linear_interpolation_fill :
    ((handle_missing_trading_days []
        [⟨0, 0, some 10, some 10, some 10, some 10, some 10⟩,
         ⟨0, 1, some 11, some 11, some 11, some 11, some 11⟩,
         ⟨0, 3, some 14, some 14, some 14, some 14, some 14⟩]).map
      (fun r => (r.date, r.close)) =
      [(0, some 10), (1, some 11),
       (2, some ((11 : ℚ) + ((14 : ℚ) - 11) *
         ((((2 : Nat) : ℚ) - ((1 : Nat) : ℚ)) / (((3 : Nat) : ℚ) - ((1 : Nat) : ℚ))))),
       (3, some 14)]) ∧
    ((11 : ℚ) + ((14 : ℚ) - 11) *
        ((((2 : Nat) : ℚ) - ((1 : Nat) : ℚ)) / (((3 : Nat) : ℚ) - ((1 : Nat) : ℚ)))
      = (25 : ℚ) / 2) ∧
    (∀ (vs : List (Option ℚ)) (i j k : Nat) (a b : ℚ),
      vs[i]? = some none → prevValid vs i = some (j, a) →
      nextValid vs i = some (k, b) →
      (fillCol vs)[i]? =
        some (some (a + (b - a) * (((i : ℚ) - (j : ℚ)) / ((k : ℚ) - (j : ℚ)))))) ∧
    (∀ (vs : List (Option ℚ)) (i k : Nat) (b : ℚ),
      vs[i]? = some none → prevValid vs i = none →
      nextValid vs i = some (k, b) →
      (fillCol vs)[i]? = some (some b)) := by
  refine ⟨rfl, by norm_num, ?_, ?_⟩
  · intro vs i j k a b hi hp hn
    exact fillCol_interior hi hp hn
  · intro vs i k b hi hp hn
    exact fillCol_leading hi hp hn

/-- Witness for C8: in the close column 10, 11, null, 14, the null's
neighbours sit at positions 1 and 3 with values 11 and 14, and the filled
value is 11 + 3 times 1/2, i.e. 12.5; a leading null before a first present
value 3 is back-filled with 3. -/
theorem c8_linear_interpolation_fill_witness :
    ((fillCol [some 10, some 11, none, some 14])[2]? =
      some (some ((11 : ℚ) + ((14 : ℚ) - 11) *
        ((((2 : Nat) : ℚ) - ((1 : Nat) : ℚ)) / (((3 : Nat) : ℚ) - ((1 : Nat) : ℚ)))))) ∧
    ((11 : ℚ) + ((14 : ℚ) - 11) *
        ((((2 : Nat) : ℚ) - ((1 : Nat) : ℚ)) / (((3 : Nat) : ℚ) - ((1 : Nat) : ℚ)))
      = (25 : ℚ) / 2) ∧
    ((fillCol [none, some 3, some 5])[0]? = some (some (3 : ℚ))) := by
  refine ⟨?_, by norm_num, ?_⟩
  · exact (c8_linear_interpolation_fill.2.2.1) [some 10, some 11, none, some 14]
      2 1 3 11 14 (by decide) (by decide) (by decide)
  · exact (c8_linear_interpolation_fill.2.2.2) [none, some 3, some 5]
      0 1 3 (by decide) (by decide) (by decide)

end Spec2Proof
